import Mathlib

/-!
Verification of the rank-eval repository's natural-language specification.

Shallow embedding: the Rust metric functions of `src/binary.rs` are modelled
as Lean functions over `List α` (the ranked list) and `Finset α` (the relevant
set).  `f64` arithmetic on metric values is idealised as exact arithmetic:
over `ℚ` for the metrics whose formulas are rational, over `ℝ` for the
DCG/NDCG family (which uses `log2`) and the statistics module (which uses
`sqrt`/`exp`/`ln`).  `usize` becomes `ℕ`.  Where a claim is specifically
about IEEE non-finite values (`confidence_interval` on a one-element slice),
f64 values are modelled as `Option ℝ` with `none` standing for a non-finite
result, and the operations propagate `none` the way IEEE propagates NaN.
-/

namespace RankEval

section BinaryMetrics

variable {α : Type} [DecidableEq α]

/-- Number of entries of `l` lying in `relevant` — the
`.filter(|id| relevant.contains(id)).count()` iterator idiom of
`src/binary.rs`. -/
def hitCount (relevant : Finset α) (l : List α) : ℕ :=
  l.countP (fun d => decide (d ∈ relevant))

/-- `precision_at_k` of `src/binary.rs` (lines 27–41):
`if k == 0 { 0.0 }` else hits in the first `k` divided by `k`. -/
def precision_at_k (ranked : List α) (relevant : Finset α) (k : ℕ) : ℚ :=
  if k = 0 then 0
  else (hitCount relevant (ranked.take k) : ℚ) / (k : ℚ)

/-- `recall_at_k` of `src/binary.rs` (lines 59–69):
`if relevant.is_empty() { 0.0 }` else hits in the first `k` divided by
`relevant.len()`. -/
def recall_at_k (ranked : List α) (relevant : Finset α) (k : ℕ) : ℚ :=
  if relevant = ∅ then 0
  else (hitCount relevant (ranked.take k) : ℚ) / (relevant.card : ℚ)

/-- The scanning loop of `mrr` (`src/binary.rs` lines 94–101), with the
0-based position `i` carried explicitly: returns `1/(i+1)` at the first
relevant document, `0.0` if none is found. -/
def mrrFrom (relevant : Finset α) : List α → ℕ → ℚ
  | [], _ => 0
  | d :: rest, i => if d ∈ relevant then 1 / (i + 1 : ℚ) else mrrFrom relevant rest (i + 1)

/-- `mrr` of `src/binary.rs`: reciprocal rank of the first relevant document. -/
def mrr (ranked : List α) (relevant : Finset α) : ℚ :=
  mrrFrom relevant ranked 0

/-- The position discount `1.0 / (i as f64 + 2.0).log2()` used by
`dcg_at_k` and `idcg_at_k` in `src/binary.rs`. -/
noncomputable def discount (i : ℕ) : ℝ :=
  1 / Real.logb 2 ((i : ℝ) + 2)

/-- The enumerate/filter/map/sum loop of `dcg_at_k` (`src/binary.rs`
lines 133–141), with the 0-based position carried explicitly: relevant
documents contribute `discount i`, others contribute nothing. -/
noncomputable def dcgFrom (relevant : Finset α) : List α → ℕ → ℝ
  | [], _ => 0
  | d :: rest, i =>
      (if d ∈ relevant then discount i else 0) + dcgFrom relevant rest (i + 1)

/-- `dcg_at_k` of `src/binary.rs`: discounted cumulative gain over the
first `k` ranked documents. -/
noncomputable def dcg_at_k (ranked : List α) (relevant : Finset α) (k : ℕ) : ℝ :=
  dcgFrom relevant (ranked.take k) 0

/-- `idcg_at_k` of `src/binary.rs` (lines 157–161):
`(0..k.min(n_relevant)).map(|i| 1.0 / (i as f64 + 2.0).log2()).sum()`. -/
noncomputable def idcg_at_k (n_relevant k : ℕ) : ℝ :=
  ∑ i ∈ Finset.range (min k n_relevant), discount i

/-- `ndcg_at_k` of `src/binary.rs` (lines 187–193): `DCG@k / IDCG@k`,
with `0.0` when the ideal is zero. -/
noncomputable def ndcg_at_k (ranked : List α) (relevant : Finset α) (k : ℕ) : ℝ :=
  let ideal := idcg_at_k relevant.card k
  if ideal = 0 then 0 else dcg_at_k ranked relevant k / ideal

/-- The accumulation loop of `average_precision` (`src/binary.rs`
lines 226–234), carrying the 0-based position `i` and the running hit
count: each relevant document at position `i` adds `(hits+1)/(i+1)`. -/
def apFrom (relevant : Finset α) : List α → ℕ → ℕ → ℚ
  | [], _, _ => 0
  | d :: rest, i, hits =>
      if d ∈ relevant then ((hits : ℚ) + 1) / ((i : ℚ) + 1) + apFrom relevant rest (i + 1) (hits + 1)
      else apFrom relevant rest (i + 1) hits

/-- `average_precision` of `src/binary.rs` (lines 221–237). -/
def average_precision (ranked : List α) (relevant : Finset α) : ℚ :=
  if relevant = ∅ then 0
  else apFrom relevant ranked 0 0 / (relevant.card : ℚ)

/-- The cascade loop of `err_at_k` (`src/binary.rs` lines 274–289),
carrying the 0-based position and the running probability `p_stop` of
having reached this position: a relevant document (binary gain `r = 1`)
adds `p_stop * 1 / rank` and multiplies `p_stop` by `1 - 1`. -/
def errFrom (relevant : Finset α) : List α → ℕ → ℚ → ℚ
  | [], _, _ => 0
  | d :: rest, i, pstop =>
      if d ∈ relevant then
        pstop * 1 / ((i : ℚ) + 1) + errFrom relevant rest (i + 1) (pstop * (1 - 1))
      else errFrom relevant rest (i + 1) pstop

/-- `err_at_k` of `src/binary.rs` (lines 269–292): `0.0` on an empty
relevant set, otherwise the cascade sum over the first `k` documents. -/
def err_at_k (ranked : List α) (relevant : Finset α) (k : ℕ) : ℚ :=
  if relevant = ∅ then 0
  else errFrom relevant (ranked.take k) 0 1

/-- The accumulation loop of `rbp_at_k` (`src/binary.rs` lines 334–343),
carrying the running power `p_power` of the persistence parameter:
a relevant document adds `p_power`, and every step multiplies `p_power`
by the persistence. -/
def rbpFrom (relevant : Finset α) (persistence : ℚ) : List α → ℚ → ℚ
  | [], _ => 0
  | d :: rest, pPower =>
      (if d ∈ relevant then pPower else 0) + rbpFrom relevant persistence rest (pPower * persistence)

/-- `rbp_at_k` of `src/binary.rs` (lines 324–346): `0.0` when the
persistence parameter lies outside `(0, 1)`, otherwise
`(1 - p) * Σ p^i * rel(i)` over the first `k` documents. -/
def rbp_at_k (ranked : List α) (relevant : Finset α) (k : ℕ) (persistence : ℚ) : ℚ :=
  if persistence ≤ 0 ∨ 1 ≤ persistence then 0
  else (1 - persistence) * rbpFrom relevant persistence (ranked.take k) 1

/-- `f_measure_at_k` of `src/binary.rs` (lines 373–388): harmonic-style
combination of precision and recall, `0.0` when both are zero. -/
def f_measure_at_k (ranked : List α) (relevant : Finset α) (k : ℕ) (beta : ℚ) : ℚ :=
  let p := precision_at_k ranked relevant k
  let r := recall_at_k ranked relevant k
  if p = 0 ∧ r = 0 then 0
  else
    let betaSq := beta * beta
    (1 + betaSq) * (p * r) / (betaSq * p + r)

/-- `success_at_k` of `src/binary.rs` (lines 406–412): `1.0` when some
document among the first `k` is relevant, else `0.0`. -/
def success_at_k (ranked : List α) (relevant : Finset α) (k : ℕ) : ℚ :=
  if (ranked.take k).any (fun d => decide (d ∈ relevant)) then 1 else 0

/-- `r_precision` of `src/binary.rs` (lines 434–440): `0.0` on an empty
relevant set, otherwise precision at cutoff `relevant.len()`. -/
def r_precision (ranked : List α) (relevant : Finset α) : ℚ :=
  if relevant = ∅ then 0
  else precision_at_k ranked relevant relevant.card

end BinaryMetrics

section BinaryLemmas

variable {α : Type} [DecidableEq α]

theorem hitCount_le_length (relevant : Finset α) (l : List α) :
    hitCount relevant l ≤ l.length :=
  List.countP_le_length _

theorem hitCount_le_card (relevant : Finset α) {l : List α} (h : l.Nodup) :
    hitCount relevant l ≤ relevant.card := by
  have hfil : (l.filter (fun d => decide (d ∈ relevant))).Nodup := h.filter _
  have hsub : (l.filter (fun d => decide (d ∈ relevant))).toFinset ⊆ relevant := by
    intro a ha
    rw [List.mem_toFinset, List.mem_filter] at ha
    exact of_decide_eq_true ha.2
  calc hitCount relevant l = (l.filter (fun d => decide (d ∈ relevant))).length :=
        List.countP_eq_length_filter _ _
    _ = (l.filter (fun d => decide (d ∈ relevant))).toFinset.card :=
        (List.toFinset_card_of_nodup hfil).symm
    _ ≤ relevant.card := Finset.card_le_card hsub

theorem hitCount_take_le (relevant : Finset α) (l : List α) {k₁ k₂ : ℕ} (h : k₁ ≤ k₂) :
    hitCount relevant (l.take k₁) ≤ hitCount relevant (l.take k₂) := by
  have : l.take k₁ = (l.take k₂).take k₁ := by
    rw [List.take_take, Nat.min_eq_left h]
  rw [this]
  exact List.Sublist.countP_le _ (List.take_sublist _ _)

theorem precision_mem_Icc (ranked : List α) (relevant : Finset α) (k : ℕ) :
    precision_at_k ranked relevant k ∈ Set.Icc (0 : ℚ) 1 := by
  unfold precision_at_k
  split
  · simp
  · rename_i hk
    have hkpos : (0 : ℚ) < (k : ℚ) := by exact_mod_cast Nat.pos_of_ne_zero hk
    constructor
    · positivity
    · rw [div_le_one hkpos]
      have h1 : hitCount relevant (ranked.take k) ≤ (ranked.take k).length :=
        hitCount_le_length _ _
      have h2 : (ranked.take k).length ≤ k := by
        simp [List.length_take]
      exact_mod_cast le_trans h1 h2

theorem recall_mem_Icc (ranked : List α) (relevant : Finset α) (k : ℕ)
    (hnd : ranked.Nodup) :
    recall_at_k ranked relevant k ∈ Set.Icc (0 : ℚ) 1 := by
  unfold recall_at_k
  split
  · simp
  · rename_i hne
    have hcard : 0 < relevant.card := Finset.card_pos.mpr (Finset.nonempty_iff_ne_empty.mpr hne)
    have hcardQ : (0 : ℚ) < (relevant.card : ℚ) := by exact_mod_cast hcard
    constructor
    · positivity
    · rw [div_le_one hcardQ]
      have h1 : hitCount relevant (ranked.take k) ≤ relevant.card :=
        hitCount_le_card relevant (hnd.sublist (List.take_sublist _ _))
      exact_mod_cast h1

theorem mrrFrom_mem_Icc (relevant : Finset α) (l : List α) (i : ℕ) :
    mrrFrom relevant l i ∈ Set.Icc (0 : ℚ) 1 := by
  induction l generalizing i with
  | nil => simp [mrrFrom]
  | cons d rest ih =>
    unfold mrrFrom
    split
    · have hpos : (0 : ℚ) < (i : ℚ) + 1 := by positivity
      constructor
      · positivity
      · rw [div_le_one hpos]
        linarith [Nat.cast_nonneg (α := ℚ) i]
    · exact ih (i + 1)

theorem apFrom_nonneg (relevant : Finset α) (l : List α) (i hits : ℕ) :
    0 ≤ apFrom relevant l i hits := by
  induction l generalizing i hits with
  | nil => simp [apFrom]
  | cons d rest ih =>
    unfold apFrom
    split
    · have := ih (i + 1) (hits + 1)
      positivity
    · exact ih (i + 1) hits

theorem apFrom_le_hitCount (relevant : Finset α) (l : List α) :
    ∀ i hits : ℕ, hits ≤ i → apFrom relevant l i hits ≤ (hitCount relevant l : ℚ) := by
  induction l with
  | nil => intro i hits _; simp [apFrom, hitCount]
  | cons d rest ih =>
    intro i hits hle
    unfold apFrom
    have hCC : hitCount relevant (d :: rest) =
        (if decide (d ∈ relevant) then 1 else 0) + hitCount relevant rest := by
      simp only [hitCount, List.countP_cons]
      split <;> omega
    split
    · rename_i hmem
      have hterm : ((hits : ℚ) + 1) / ((i : ℚ) + 1) ≤ 1 := by
        have hpos : (0 : ℚ) < (i : ℚ) + 1 := by positivity
        rw [div_le_one hpos]
        have : (hits : ℚ) ≤ (i : ℚ) := by exact_mod_cast hle
        linarith
      have hrest := ih (i + 1) (hits + 1) (by omega)
      rw [hCC, if_pos (decide_eq_true hmem)]
      push_cast
      linarith
    · rename_i hmem
      have hrest := ih (i + 1) hits (by omega)
      have : hitCount relevant rest ≤ hitCount relevant (d :: rest) := by
        rw [hCC]; split <;> omega
      calc apFrom relevant rest (i + 1) hits ≤ (hitCount relevant rest : ℚ) := hrest
        _ ≤ (hitCount relevant (d :: rest) : ℚ) := by exact_mod_cast this

theorem average_precision_mem_Icc (ranked : List α) (relevant : Finset α)
    (hnd : ranked.Nodup) :
    average_precision ranked relevant ∈ Set.Icc (0 : ℚ) 1 := by
  unfold average_precision
  split
  · simp
  · rename_i hne
    have hcard : 0 < relevant.card := Finset.card_pos.mpr (Finset.nonempty_iff_ne_empty.mpr hne)
    have hcardQ : (0 : ℚ) < (relevant.card : ℚ) := by exact_mod_cast hcard
    constructor
    · have := apFrom_nonneg relevant ranked 0 0
      positivity
    · rw [div_le_one hcardQ]
      calc apFrom relevant ranked 0 0 ≤ (hitCount relevant ranked : ℚ) :=
            apFrom_le_hitCount relevant ranked 0 0 le_rfl
        _ ≤ (relevant.card : ℚ) := by exact_mod_cast hitCount_le_card relevant hnd

theorem errFrom_zero (relevant : Finset α) (l : List α) (i : ℕ) :
    errFrom relevant l i 0 = 0 := by
  induction l generalizing i with
  | nil => simp [errFrom]
  | cons d rest ih =>
    unfold errFrom
    split
    · simp [ih]
    · exact ih (i + 1)

theorem errFrom_one (relevant : Finset α) (l : List α) :
    ∀ i : ℕ, errFrom relevant l i 1 =
      match l.findIdx? (fun d => decide (d ∈ relevant)) with
      | some j => 1 / ((i : ℚ) + (j : ℚ) + 1)
      | none => 0 := by
  induction l with
  | nil => intro i; simp [errFrom]
  | cons d rest ih =>
    intro i
    unfold errFrom
    by_cases hd : d ∈ relevant
    · rw [if_pos hd]
      have h0 : (1 : ℚ) * (1 - 1) = 0 := by norm_num
      rw [h0, errFrom_zero]
      simp only [List.findIdx?_cons, decide_eq_true hd, if_pos]
      push_cast
      ring
    · rw [if_neg hd]
      rw [ih (i + 1)]
      have hfd : decide (d ∈ relevant) = false := decide_eq_false hd
      simp only [List.findIdx?_cons, hfd, Bool.false_eq_true, if_false, List.findIdx?_succ]
      cases hrest : rest.findIdx? (fun d => decide (d ∈ relevant)) with
      | none => simp
      | some j =>
        simp only [Option.map_some']
        push_cast
        ring_nf

theorem err_eq_first_hit (ranked : List α) (relevant : Finset α) (k : ℕ) :
    err_at_k ranked relevant k =
      match (ranked.take k).findIdx? (fun d => decide (d ∈ relevant)) with
      | some j => 1 / ((j : ℚ) + 1)
      | none => 0 := by
  unfold err_at_k
  split
  · rename_i hemp
    have : (ranked.take k).findIdx? (fun d => decide (d ∈ relevant)) = none := by
      rw [List.findIdx?_eq_none_iff]
      intro x _
      subst hemp
      simp
    rw [this]
  · rw [errFrom_one]
    cases (ranked.take k).findIdx? (fun d => decide (d ∈ relevant)) with
    | none => rfl
    | some j => simp

theorem err_mem_Icc (ranked : List α) (relevant : Finset α) (k : ℕ) :
    err_at_k ranked relevant k ∈ Set.Icc (0 : ℚ) 1 := by
  rw [err_eq_first_hit]
  cases (ranked.take k).findIdx? (fun d => decide (d ∈ relevant)) with
  | none => simp
  | some j =>
    have hpos : (0 : ℚ) < (j : ℚ) + 1 := by positivity
    constructor
    · positivity
    · rw [div_le_one hpos]
      linarith [Nat.cast_nonneg (α := ℚ) j]

theorem rbpFrom_nonneg (relevant : Finset α) {p : ℚ} (hp : 0 ≤ p) (l : List α) :
    ∀ pw : ℚ, 0 ≤ pw → 0 ≤ rbpFrom relevant p l pw := by
  induction l with
  | nil => intro pw _; simp [rbpFrom]
  | cons d rest ih =>
    intro pw hpw
    unfold rbpFrom
    have h1 : 0 ≤ rbpFrom relevant p rest (pw * p) := ih (pw * p) (mul_nonneg hpw hp)
    split <;> linarith

theorem rbpFrom_le (relevant : Finset α) {p : ℚ} (hp0 : 0 < p) (hp1 : p < 1) (l : List α) :
    ∀ pw : ℚ, 0 ≤ pw → rbpFrom relevant p l pw ≤ pw / (1 - p) := by
  have h1p : (0 : ℚ) < 1 - p := by linarith
  induction l with
  | nil => intro pw hpw; simp [rbpFrom]; positivity
  | cons d rest ih =>
    intro pw hpw
    unfold rbpFrom
    have hrec : rbpFrom relevant p rest (pw * p) ≤ (pw * p) / (1 - p) :=
      ih (pw * p) (mul_nonneg hpw hp0.le)
    have hsum : pw + (pw * p) / (1 - p) = pw / (1 - p) := by
      field_simp
      ring
    split
    · linarith
    · have : (0 : ℚ) ≤ pw := hpw
      linarith

theorem rbp_mem_Icc (ranked : List α) (relevant : Finset α) (k : ℕ) (p : ℚ) :
    rbp_at_k ranked relevant k p ∈ Set.Icc (0 : ℚ) 1 := by
  unfold rbp_at_k
  split
  · simp
  · rename_i hp
    push_neg at hp
    obtain ⟨hp0, hp1⟩ := hp
    have h1p : (0 : ℚ) < 1 - p := by linarith
    have hnn := rbpFrom_nonneg relevant hp0.le (ranked.take k) 1 zero_le_one
    have hle := rbpFrom_le relevant hp0 hp1 (ranked.take k) 1 zero_le_one
    constructor
    · positivity
    · calc (1 - p) * rbpFrom relevant p (ranked.take k) 1
          ≤ (1 - p) * (1 / (1 - p)) := by
            exact mul_le_mul_of_nonneg_left hle h1p.le
        _ = 1 := by field_simp

theorem success_mem_Icc (ranked : List α) (relevant : Finset α) (k : ℕ) :
    success_at_k ranked relevant k ∈ Set.Icc (0 : ℚ) 1 := by
  unfold success_at_k
  split <;> simp

theorem recall_pos_of_precision_pos {ranked : List α} {relevant : Finset α} {k : ℕ}
    (h : 0 < precision_at_k ranked relevant k) : 0 < recall_at_k ranked relevant k := by
  unfold precision_at_k at h
  by_cases hk : k = 0
  · rw [if_pos hk] at h; exact absurd h (lt_irrefl 0)
  · rw [if_neg hk] at h
    have hkQ : (0 : ℚ) < (k : ℚ) := by exact_mod_cast Nat.pos_of_ne_zero hk
    have hhits : 0 < hitCount relevant (ranked.take k) := by
      by_contra hc
      push_neg at hc
      have h0 : hitCount relevant (ranked.take k) = 0 := Nat.le_zero.mp hc
      rw [h0] at h
      simp at h
    have hne : relevant ≠ ∅ := by
      obtain ⟨a, _, ha⟩ := List.countP_pos_iff.mp hhits
      intro hemp
      rw [hemp] at ha
      simp at ha
    unfold recall_at_k
    rw [if_neg hne]
    have hcard : 0 < relevant.card := Finset.card_pos.mpr (Finset.nonempty_iff_ne_empty.mpr hne)
    have hcardQ : (0 : ℚ) < (relevant.card : ℚ) := by exact_mod_cast hcard
    have : (0 : ℚ) < (hitCount relevant (ranked.take k) : ℚ) := by exact_mod_cast hhits
    positivity

theorem f_measure_mem_Icc (ranked : List α) (relevant : Finset α) (k : ℕ) (beta : ℚ)
    (hnd : ranked.Nodup) :
    f_measure_at_k ranked relevant k beta ∈ Set.Icc (0 : ℚ) 1 := by
  simp only [f_measure_at_k]
  split
  · simp
  · rename_i hboth
    obtain ⟨hP0, hP1⟩ := precision_mem_Icc ranked relevant k
    obtain ⟨hR0, hR1⟩ := recall_mem_Icc ranked relevant k hnd
    have hRpos : 0 < recall_at_k ranked relevant k := by
      rcases lt_or_eq_of_le hR0 with h | h
      · exact h
      · rcases lt_or_eq_of_le hP0 with h' | h'
        · exact recall_pos_of_precision_pos h'
        · exact absurd ⟨h'.symm, h.symm⟩ hboth
    have hb2 : (0 : ℚ) ≤ beta * beta := mul_self_nonneg beta
    have hden : 0 < beta * beta * precision_at_k ranked relevant k +
        recall_at_k ranked relevant k := by
      have : 0 ≤ beta * beta * precision_at_k ranked relevant k := mul_nonneg hb2 hP0
      linarith
    constructor
    · have hnum : 0 ≤ (1 + beta * beta) *
          (precision_at_k ranked relevant k * recall_at_k ranked relevant k) := by
        have := mul_nonneg hP0 hR0
        nlinarith
      positivity
    · rw [div_le_one hden]
      have h1 : 0 ≤ beta * beta * precision_at_k ranked relevant k *
          (1 - recall_at_k ranked relevant k) := by
        apply mul_nonneg (mul_nonneg hb2 hP0)
        linarith
      have h2 : 0 ≤ recall_at_k ranked relevant k *
          (1 - precision_at_k ranked relevant k) := by
        apply mul_nonneg hRpos.le
        linarith
      nlinarith

theorem r_precision_mem_Icc (ranked : List α) (relevant : Finset α) :
    r_precision ranked relevant ∈ Set.Icc (0 : ℚ) 1 := by
  unfold r_precision
  split
  · simp
  · exact precision_mem_Icc ranked relevant relevant.card

theorem discount_pos (i : ℕ) : 0 < discount i := by
  unfold discount
  have h2 : (1 : ℝ) < (i : ℝ) + 2 := by
    have : (0 : ℝ) ≤ (i : ℝ) := Nat.cast_nonneg i
    linarith
  have := Real.logb_pos (b := 2) one_lt_two h2
  positivity

theorem discount_antitone {i j : ℕ} (h : i ≤ j) : discount j ≤ discount i := by
  unfold discount
  have hi : (1 : ℝ) < (i : ℝ) + 2 := by
    have : (0 : ℝ) ≤ (i : ℝ) := Nat.cast_nonneg i
    linarith
  have hj : (i : ℝ) + 2 ≤ (j : ℝ) + 2 := by
    have : (i : ℝ) ≤ (j : ℝ) := by exact_mod_cast h
    linarith
  have hlogi : 0 < Real.logb 2 ((i : ℝ) + 2) := Real.logb_pos one_lt_two hi
  have hlog : Real.logb 2 ((i : ℝ) + 2) ≤ Real.logb 2 ((j : ℝ) + 2) :=
    Real.logb_le_logb_of_le one_lt_two (by linarith) hj
  exact one_div_le_one_div_of_le hlogi hlog

theorem dcgFrom_nonneg (relevant : Finset α) (l : List α) :
    ∀ i : ℕ, 0 ≤ dcgFrom relevant l i := by
  induction l with
  | nil => intro i; simp [dcgFrom]
  | cons d rest ih =>
    intro i
    unfold dcgFrom
    have h1 := ih (i + 1)
    have h2 := (discount_pos i).le
    split <;> linarith

theorem dcgFrom_le_sum (relevant : Finset α) (l : List α) :
    ∀ i : ℕ, dcgFrom relevant l i ≤
      ∑ j ∈ Finset.range (hitCount relevant l), discount (i + j) := by
  induction l with
  | nil => intro i; simp [dcgFrom, hitCount]
  | cons d rest ih =>
    intro i
    unfold dcgFrom
    have hCC : hitCount relevant (d :: rest) =
        (if decide (d ∈ relevant) then 1 else 0) + hitCount relevant rest := by
      simp only [hitCount, List.countP_cons]
      split <;> omega
    by_cases hd : d ∈ relevant
    · rw [if_pos hd, hCC, if_pos (decide_eq_true hd)]
      have hsum : ∑ j ∈ Finset.range (1 + hitCount relevant rest), discount (i + j) =
          discount i + ∑ j ∈ Finset.range (hitCount relevant rest), discount (i + 1 + j) := by
        rw [Nat.add_comm 1 (hitCount relevant rest), Finset.sum_range_succ']
        have : ∀ j, discount (i + (j + 1)) = discount (i + 1 + j) := by
          intro j
          congr 1
          omega
        simp only [this, Nat.add_zero]
        ring
      rw [hsum]
      have := ih (i + 1)
      linarith
    · rw [if_neg hd, hCC, if_neg (by simp [hd])]
      have h1 := ih (i + 1)
      have h2 : ∑ j ∈ Finset.range (hitCount relevant rest), discount (i + 1 + j) ≤
          ∑ j ∈ Finset.range (hitCount relevant rest), discount (i + j) := by
        apply Finset.sum_le_sum
        intro j _
        exact discount_antitone (by omega)
      simp only [Nat.zero_add]
      linarith

theorem idcg_nonneg (n k : ℕ) : 0 ≤ idcg_at_k n k := by
  unfold idcg_at_k
  apply Finset.sum_nonneg
  intro i _
  exact (discount_pos i).le

theorem dcg_le_idcg (ranked : List α) (relevant : Finset α) (k : ℕ)
    (hnd : ranked.Nodup) :
    dcg_at_k ranked relevant k ≤ idcg_at_k relevant.card k := by
  unfold dcg_at_k idcg_at_k
  have h1 := dcgFrom_le_sum relevant (ranked.take k) 0
  simp only [Nat.zero_add] at h1
  have hhk : hitCount relevant (ranked.take k) ≤ k :=
    le_trans (hitCount_le_length _ _) (by simp [List.length_take])
  have hhc : hitCount relevant (ranked.take k) ≤ relevant.card :=
    hitCount_le_card relevant (hnd.sublist (List.take_sublist _ _))
  have hsub : Finset.range (hitCount relevant (ranked.take k)) ⊆
      Finset.range (min k relevant.card) := by
    apply Finset.range_subset.mpr
    omega
  have h2 : ∑ j ∈ Finset.range (hitCount relevant (ranked.take k)), discount j ≤
      ∑ j ∈ Finset.range (min k relevant.card), discount j := by
    apply Finset.sum_le_sum_of_subset_of_nonneg hsub
    intro i _ _
    exact (discount_pos i).le
  linarith

theorem ndcg_mem_Icc (ranked : List α) (relevant : Finset α) (k : ℕ)
    (hnd : ranked.Nodup) :
    ndcg_at_k ranked relevant k ∈ Set.Icc (0 : ℝ) 1 := by
  unfold ndcg_at_k
  simp only
  split
  · simp
  · rename_i hne
    have hpos : 0 < idcg_at_k relevant.card k :=
      lt_of_le_of_ne (idcg_nonneg _ _) (Ne.symm hne)
    constructor
    · exact div_nonneg (by
        unfold dcg_at_k
        exact dcgFrom_nonneg relevant (ranked.take k) 0) hpos.le
    · rw [div_le_one hpos]
      exact dcg_le_idcg ranked relevant k hnd

end BinaryLemmas

section ClaimC1

variable {α : Type} [DecidableEq α]

/-- Claim C1: for every ranked list of pairwise-distinct document ids, every
relevant set, and every `k`, each binary metric (`precision_at_k`,
`recall_at_k`, `mrr`, `ndcg_at_k`, `average_precision`, `err_at_k`,
`rbp_at_k`, `f_measure_at_k`, `success_at_k`, `r_precision`) returns a value
in `[0, 1]`; a `k` larger than the ranked list length is tolerated and the
shorter list is consumed in full (the cutoff metrics then agree with those
taken at the full list length), with no error and no NaN. -/
theorem binary_metrics_bounded (ranked : List α) (relevant : Finset α)
    (k : ℕ) (p beta : ℚ) (hnd : ranked.Nodup) :
    precision_at_k ranked relevant k ∈ Set.Icc (0 : ℚ) 1 ∧
    recall_at_k ranked relevant k ∈ Set.Icc (0 : ℚ) 1 ∧
    mrr ranked relevant ∈ Set.Icc (0 : ℚ) 1 ∧
    ndcg_at_k ranked relevant k ∈ Set.Icc (0 : ℝ) 1 ∧
    average_precision ranked relevant ∈ Set.Icc (0 : ℚ) 1 ∧
    err_at_k ranked relevant k ∈ Set.Icc (0 : ℚ) 1 ∧
    rbp_at_k ranked relevant k p ∈ Set.Icc (0 : ℚ) 1 ∧
    f_measure_at_k ranked relevant k beta ∈ Set.Icc (0 : ℚ) 1 ∧
    success_at_k ranked relevant k ∈ Set.Icc (0 : ℚ) 1 ∧
    r_precision ranked relevant ∈ Set.Icc (0 : ℚ) 1 ∧
    (ranked.length ≤ k →
      recall_at_k ranked relevant k = recall_at_k ranked relevant ranked.length ∧
      err_at_k ranked relevant k = err_at_k ranked relevant ranked.length ∧
      success_at_k ranked relevant k = success_at_k ranked relevant ranked.length) := by
  refine ⟨precision_mem_Icc _ _ _, recall_mem_Icc _ _ _ hnd, mrrFrom_mem_Icc _ _ _,
    ndcg_mem_Icc _ _ _ hnd, average_precision_mem_Icc _ _ hnd, err_mem_Icc _ _ _,
    rbp_mem_Icc _ _ _ _, f_measure_mem_Icc _ _ _ _ hnd, success_mem_Icc _ _ _,
    r_precision_mem_Icc _ _, fun hlen => ?_⟩
  have ht : ranked.take k = ranked.take ranked.length := by
    rw [List.take_of_length_le hlen, List.take_length]
  exact ⟨by unfold recall_at_k; rw [ht], by unfold err_at_k; rw [ht],
    by unfold success_at_k; rw [ht]⟩

/-- Witness for C1 at the concrete input `ranked = [0,1,2]`,
`relevant = {0,2}`, `k = 5` (larger than the list), `p = 1/2`, `beta = 1`. -/
theorem binary_metrics_bounded_witness :
    List.Nodup [0, 1, 2] ∧
    (precision_at_k [0, 1, 2] ({0, 2} : Finset ℕ) 5 ∈ Set.Icc (0 : ℚ) 1 ∧
    recall_at_k [0, 1, 2] ({0, 2} : Finset ℕ) 5 ∈ Set.Icc (0 : ℚ) 1 ∧
    mrr [0, 1, 2] ({0, 2} : Finset ℕ) ∈ Set.Icc (0 : ℚ) 1 ∧
    ndcg_at_k [0, 1, 2] ({0, 2} : Finset ℕ) 5 ∈ Set.Icc (0 : ℝ) 1 ∧
    average_precision [0, 1, 2] ({0, 2} : Finset ℕ) ∈ Set.Icc (0 : ℚ) 1 ∧
    err_at_k [0, 1, 2] ({0, 2} : Finset ℕ) 5 ∈ Set.Icc (0 : ℚ) 1 ∧
    rbp_at_k [0, 1, 2] ({0, 2} : Finset ℕ) 5 (1 / 2) ∈ Set.Icc (0 : ℚ) 1 ∧
    f_measure_at_k [0, 1, 2] ({0, 2} : Finset ℕ) 5 1 ∈ Set.Icc (0 : ℚ) 1 ∧
    success_at_k [0, 1, 2] ({0, 2} : Finset ℕ) 5 ∈ Set.Icc (0 : ℚ) 1 ∧
    r_precision [0, 1, 2] ({0, 2} : Finset ℕ) ∈ Set.Icc (0 : ℚ) 1 ∧
    (List.length [0, 1, 2] ≤ 5 →
      recall_at_k [0, 1, 2] ({0, 2} : Finset ℕ) 5 =
        recall_at_k [0, 1, 2] ({0, 2} : Finset ℕ) (List.length [0, 1, 2]) ∧
      err_at_k [0, 1, 2] ({0, 2} : Finset ℕ) 5 =
        err_at_k [0, 1, 2] ({0, 2} : Finset ℕ) (List.length [0, 1, 2]) ∧
      success_at_k [0, 1, 2] ({0, 2} : Finset ℕ) 5 =
        success_at_k [0, 1, 2] ({0, 2} : Finset ℕ) (List.length [0, 1, 2]))) :=
  ⟨by decide, binary_metrics_bounded [0, 1, 2] {0, 2} 5 (1 / 2) 1 (by decide)⟩

end ClaimC1

section ClaimC2

variable {α : Type} [DecidableEq α]

theorem hitCount_all (relevant : Finset α) {l : List α} (h : ∀ d ∈ l, d ∈ relevant) :
    hitCount relevant l = l.length := by
  unfold hitCount
  rw [List.countP_eq_length]
  intro a ha
  exact decide_eq_true (h a ha)

theorem apFrom_all (relevant : Finset α) {l : List α} (h : ∀ d ∈ l, d ∈ relevant) :
    ∀ i : ℕ, apFrom relevant l i i = (l.length : ℚ) := by
  induction l with
  | nil => intro i; simp [apFrom]
  | cons d rest ih =>
    intro i
    unfold apFrom
    rw [if_pos (h d (List.mem_cons_self d rest))]
    have hrest : ∀ x ∈ rest, x ∈ relevant := fun x hx => h x (List.mem_cons_of_mem d hx)
    rw [ih hrest (i + 1)]
    have hpos : ((i : ℚ) + 1) ≠ 0 := by positivity
    field_simp
    ring

theorem dcgFrom_all (relevant : Finset α) {l : List α} (h : ∀ d ∈ l, d ∈ relevant) :
    ∀ i : ℕ, dcgFrom relevant l i = ∑ j ∈ Finset.range l.length, discount (i + j) := by
  induction l with
  | nil => intro i; simp [dcgFrom]
  | cons d rest ih =>
    intro i
    unfold dcgFrom
    rw [if_pos (h d (List.mem_cons_self d rest))]
    have hrest : ∀ x ∈ rest, x ∈ relevant := fun x hx => h x (List.mem_cons_of_mem d hx)
    rw [ih hrest (i + 1)]
    rw [List.length_cons, Finset.sum_range_succ']
    have harg : ∀ j, discount (i + (j + 1)) = discount (i + 1 + j) := by
      intro j
      congr 1
      omega
    simp only [harg, Nat.add_zero]
    ring

/-- Counterexample to C2 as stated: with `ranked = [0, 1]` and `relevant`
exactly the set of ids appearing in `ranked`, `recall_at_k` at `k = 1` is
`1/2`, not `1.0`; and with `ranked = [0]`, `precision_at_k` at `k = 2`
(a `k ≥ 1` tolerated by C1) is `1/2`, not `1.0`. -/
theorem all_relevant_metrics_not_all_one :
    recall_at_k [0, 1] (List.toFinset [0, 1]) 1 ≠ 1 ∧
    precision_at_k [(0 : ℕ)] (List.toFinset [0]) 2 ≠ 1 := by
  constructor <;>
    norm_num [recall_at_k, precision_at_k, hitCount, List.toFinset_cons]

/-- Claim C2 (amended): for every non-empty ranked list of pairwise-distinct
ids whose relevant set is exactly the set of its ids, `ndcg_at_k`, `mrr` and
`average_precision` equal `1.0` for every `k ≥ 1`; `precision_at_k` equals
`1.0` exactly when `k` is at most the list length, and `recall_at_k` equals
`1.0` exactly when `k` is at least the list length (so all five are `1.0`
precisely at `k = ranked.length`). -/
theorem all_relevant_metrics_one (ranked : List α) (k : ℕ)
    (hne : ranked ≠ []) (hnd : ranked.Nodup) (hk : 1 ≤ k) :
    ndcg_at_k ranked ranked.toFinset k = 1 ∧
    mrr ranked ranked.toFinset = 1 ∧
    average_precision ranked ranked.toFinset = 1 ∧
    (precision_at_k ranked ranked.toFinset k = 1 ↔ k ≤ ranked.length) ∧
    (recall_at_k ranked ranked.toFinset k = 1 ↔ ranked.length ≤ k) := by
  have hn : 1 ≤ ranked.length := by
    cases ranked with
    | nil => exact absurd rfl hne
    | cons d rest => simp
  have hall : ∀ d ∈ ranked, d ∈ ranked.toFinset := fun d hd => List.mem_toFinset.mpr hd
  have hall_take : ∀ d ∈ ranked.take k, d ∈ ranked.toFinset :=
    fun d hd => hall d (List.mem_of_mem_take hd)
  have hcard : ranked.toFinset.card = ranked.length := List.toFinset_card_of_nodup hnd
  have hhits : hitCount ranked.toFinset (ranked.take k) = min k ranked.length := by
    rw [hitCount_all _ hall_take, List.length_take]
  have hfne : ranked.toFinset ≠ ∅ := by
    cases ranked with
    | nil => exact absurd rfl hne
    | cons d rest => simp
  refine ⟨?_, ?_, ?_, ?_, ?_⟩
  · unfold ndcg_at_k
    simp only
    have hdcg : dcg_at_k ranked ranked.toFinset k =
        idcg_at_k ranked.toFinset.card k := by
      unfold dcg_at_k idcg_at_k
      rw [dcgFrom_all _ hall_take 0]
      simp only [Nat.zero_add, List.length_take, hcard]
    have hpos : 0 < idcg_at_k ranked.toFinset.card k := by
      unfold idcg_at_k
      apply Finset.sum_pos
      · intro i _
        exact discount_pos i
      · rw [hcard]
        apply Finset.nonempty_range_iff.mpr
        omega
    rw [if_neg (ne_of_gt hpos), hdcg]
    exact div_self (ne_of_gt hpos)
  · cases ranked with
    | nil => exact absurd rfl hne
    | cons d rest =>
      unfold mrr mrrFrom
      rw [if_pos (by simp : d ∈ (d :: rest).toFinset)]
      norm_num
  · unfold average_precision
    rw [if_neg hfne, apFrom_all _ hall 0, hcard]
    have : ((ranked.length : ℚ)) ≠ 0 := by
      have : (0 : ℚ) < (ranked.length : ℚ) := by exact_mod_cast hn
      linarith
    field_simp
  · unfold precision_at_k
    rw [if_neg (by omega : ¬ k = 0), hhits]
    have hkQ : ((k : ℚ)) ≠ 0 := by
      have : (0 : ℚ) < (k : ℚ) := by exact_mod_cast hk
      linarith
    rw [div_eq_one_iff_eq hkQ]
    constructor
    · intro h
      have : min k ranked.length = k := by exact_mod_cast h
      omega
    · intro h
      have : min k ranked.length = k := by omega
      exact_mod_cast congrArg (fun n : ℕ => (n : ℚ)) this
  · unfold recall_at_k
    rw [if_neg hfne, hhits, hcard]
    have hnQ : ((ranked.length : ℚ)) ≠ 0 := by
      have : (0 : ℚ) < (ranked.length : ℚ) := by exact_mod_cast hn
      linarith
    rw [div_eq_one_iff_eq hnQ]
    constructor
    · intro h
      have : min k ranked.length = ranked.length := by exact_mod_cast h
      omega
    · intro h
      have : min k ranked.length = ranked.length := by omega
      exact_mod_cast congrArg (fun n : ℕ => (n : ℚ)) this

/-- Witness for the amended C2 at `ranked = [0, 1]`, `k = 2`. -/
theorem all_relevant_metrics_one_witness :
    ndcg_at_k [0, 1] (List.toFinset [0, 1]) 2 = 1 ∧
    mrr [0, 1] (List.toFinset [0, 1]) = 1 ∧
    average_precision [0, 1] (List.toFinset [0, 1]) = 1 ∧
    (precision_at_k [0, 1] (List.toFinset [0, 1]) 2 = 1 ↔ 2 ≤ List.length [0, 1]) ∧
    (recall_at_k [(0 : ℕ), 1] (List.toFinset [0, 1]) 2 = 1 ↔ List.length [0, 1] ≤ 2) :=
  all_relevant_metrics_one [0, 1] 2 (by decide) (by decide) (by decide)

end ClaimC2

section ClaimC3

/-- Counterexample to C3 as stated: `precision_at_k` is not non-increasing
in `k` — with `ranked = [0, 1]` and `relevant = {1}`, `P@1 = 0 < 1/2 = P@2`. -/
theorem precision_not_monotone :
    ¬ (precision_at_k [0, 1] ({1} : Finset ℕ) 2 ≤ precision_at_k [0, 1] ({1} : Finset ℕ) 1) := by
  norm_num [precision_at_k, hitCount]

/-- Claim C3 (amended): `recall_at_k` is non-decreasing in `k` for every
fixed ranked list and relevant set; `precision_at_k` is not monotone in
general, but on the spec's own verification fixture `ranked = [d1..d5]`,
`relevant = {d1, d3}` the chain `P@1 ≥ P@3 ≥ P@5` holds. -/
theorem recall_monotone_and_precision_fixture :
    (∀ (α : Type) [DecidableEq α] (ranked : List α) (relevant : Finset α) (k₁ k₂ : ℕ),
      k₁ ≤ k₂ → recall_at_k ranked relevant k₁ ≤ recall_at_k ranked relevant k₂) ∧
    precision_at_k [1, 2, 3, 4, 5] ({1, 3} : Finset ℕ) 3 ≤
      precision_at_k [1, 2, 3, 4, 5] ({1, 3} : Finset ℕ) 1 ∧
    precision_at_k [1, 2, 3, 4, 5] ({1, 3} : Finset ℕ) 5 ≤
      precision_at_k [1, 2, 3, 4, 5] ({1, 3} : Finset ℕ) 3 := by
  refine ⟨?_, by norm_num [precision_at_k, hitCount], by norm_num [precision_at_k, hitCount]⟩
  intro α inst ranked relevant k₁ k₂ hk
  unfold recall_at_k
  split
  · exact le_refl 0
  · rename_i hne
    have hcard : 0 < relevant.card := Finset.card_pos.mpr (Finset.nonempty_iff_ne_empty.mpr hne)
    have hcardQ : (0 : ℚ) < (relevant.card : ℚ) := by exact_mod_cast hcard
    apply div_le_div_of_nonneg_right ?_ hcardQ.le
    exact_mod_cast hitCount_take_le relevant ranked hk

/-- Witness for the amended C3: the recall part applied at
`ranked = [0, 1]`, `relevant = {1}`, `k₁ = 1 ≤ k₂ = 2`. -/
theorem recall_monotone_witness :
    recall_at_k [0, 1] ({1} : Finset ℕ) 1 ≤ recall_at_k [0, 1] ({1} : Finset ℕ) 2 :=
  recall_monotone_and_precision_fixture.1 ℕ [0, 1] {1} 1 2 (by decide)

end ClaimC3

section ClaimC4

variable {α : Type} [DecidableEq α]

theorem mrrFrom_eq_first_hit (relevant : Finset α) (l : List α) :
    ∀ i : ℕ, mrrFrom relevant l i =
      match l.findIdx? (fun d => decide (d ∈ relevant)) with
      | some j => 1 / ((i : ℚ) + (j : ℚ) + 1)
      | none => 0 := by
  induction l with
  | nil => intro i; simp [mrrFrom]
  | cons d rest ih =>
    intro i
    unfold mrrFrom
    by_cases hd : d ∈ relevant
    · rw [if_pos hd]
      simp only [List.findIdx?_cons, decide_eq_true hd, if_pos]
      push_cast
      ring_nf
    · rw [if_neg hd, ih (i + 1)]
      have hfd : decide (d ∈ relevant) = false := decide_eq_false hd
      simp only [List.findIdx?_cons, hfd, Bool.false_eq_true, if_false, List.findIdx?_succ]
      cases hrest : rest.findIdx? (fun d => decide (d ∈ relevant)) with
      | none => simp
      | some j =>
        simp only [Option.map_some']
        push_cast
        ring_nf

/-- Claim C4: for every ranked list, relevant set and `k`, `err_at_k`
equals the reciprocal rank of the first relevant hit restricted to the
top-`k` (that is, `mrr` of the truncated list): it is `1/(j+1)` when the
first relevant document sits at 0-based index `j` of the top-`k`, and `0.0`
when no relevant document occurs in the top-`k` (in particular when the
relevant set is empty). -/
theorem err_reduces_to_reciprocal_rank (ranked : List α) (relevant : Finset α) (k : ℕ) :
    err_at_k ranked relevant k = mrr (ranked.take k) relevant ∧
    err_at_k ranked relevant k =
      match (ranked.take k).findIdx? (fun d => decide (d ∈ relevant)) with
      | some j => 1 / ((j : ℚ) + 1)
      | none => 0 := by
  have herr := err_eq_first_hit ranked relevant k
  have hmrr := mrrFrom_eq_first_hit relevant (ranked.take k) 0
  constructor
  · rw [herr]
    unfold mrr
    rw [hmrr]
    cases (ranked.take k).findIdx? (fun d => decide (d ∈ relevant)) with
    | none => rfl
    | some j => simp
  · exact herr

end ClaimC4

section ClaimC6

/-- The `ValidationError` enum of `src/validation.rs` (lines 7–20). -/
inductive ValidationError where
  | kTooLarge (k rankedLen : ℕ)
  | kZero
  | emptyRanked
  | noRelevant
  | invalidPersistence (persistence : ℚ)
  | invalidBeta (beta : ℚ)
deriving DecidableEq

/-- `validate_persistence` of `src/validation.rs` (lines 112–117):
errors unless the persistence lies strictly inside `(0, 1)`. -/
def validate_persistence (persistence : ℚ) : Except ValidationError Unit :=
  if persistence ≤ 0 ∨ 1 ≤ persistence then
    Except.error (ValidationError.invalidPersistence persistence)
  else Except.ok ()

/-- Claim C6: for every ranked list, relevant set and `k`, and every
persistence `p` with `p ≤ 0` or `p ≥ 1`, `rbp_at_k` returns `0.0` without
erroring, while `validate_persistence` returns the `InvalidPersistence`
error for exactly the same set of persistence values and `Ok` for every
`p` strictly inside `(0, 1)`. -/
theorem rbp_invalid_persistence_matches_validator (p : ℚ) :
    ((p ≤ 0 ∨ 1 ≤ p) →
      (∀ (ranked : List ℕ) (relevant : Finset ℕ) (k : ℕ), rbp_at_k ranked relevant k p = 0)) ∧
    (validate_persistence p =
        Except.error (ValidationError.invalidPersistence p) ↔ (p ≤ 0 ∨ 1 ≤ p)) ∧
    (0 < p → p < 1 → validate_persistence p = Except.ok ()) := by
  refine ⟨fun hp ranked relevant k => ?_, ⟨fun hv => ?_, fun hp => ?_⟩, fun h0 h1 => ?_⟩
  · unfold rbp_at_k
    rw [if_pos hp]
  · by_contra hc
    push_neg at hc
    unfold validate_persistence at hv
    rw [if_neg (by push_neg; exact hc)] at hv
    exact Except.noConfusion hv
  · unfold validate_persistence
    rw [if_pos hp]
  · unfold validate_persistence
    rw [if_neg (by push_neg; exact ⟨h0, h1⟩)]

/-- Witness for C6: the boundary values `p = 0` and `p = 1` from the spec,
plus a valid `p = 1/2`. -/
theorem rbp_invalid_persistence_witness :
    rbp_at_k [0, 1] ({0} : Finset ℕ) 2 0 = 0 ∧
    validate_persistence 0 = Except.error (ValidationError.invalidPersistence 0) ∧
    rbp_at_k [0, 1] ({0} : Finset ℕ) 2 1 = 0 ∧
    validate_persistence 1 = Except.error (ValidationError.invalidPersistence 1) ∧
    validate_persistence (1 / 2) = Except.ok () :=
  ⟨(rbp_invalid_persistence_matches_validator 0).1 (Or.inl le_rfl) [0, 1] {0} 2,
   ((rbp_invalid_persistence_matches_validator 0).2.1).mpr (Or.inl le_rfl),
   (rbp_invalid_persistence_matches_validator 1).1 (Or.inr le_rfl) [0, 1] {0} 2,
   ((rbp_invalid_persistence_matches_validator 1).2.1).mpr (Or.inr le_rfl),
   (rbp_invalid_persistence_matches_validator (1 / 2)).2.2 (by norm_num) (by norm_num)⟩

end ClaimC6

section Statistics

/-- The `TTestResult` struct of `src/statistics.rs` (lines 4–12).  The f64
fields are idealised as exact reals; the `significant` Bool (`p < alpha`,
an f64 comparison) is modelled as the corresponding proposition. -/
structure TTestResult where
  t_statistic : ℝ
  p_value : ℝ
  degrees_of_freedom : ℕ
  mean_difference : ℝ
  std_error : ℝ
  significant : Prop

/-- The Abramowitz–Stegun `erf` approximation of `src/statistics.rs`
(lines 208–224). -/
noncomputable def erf (x : ℝ) : ℝ :=
  let a1 : ℝ := 0.254829592
  let a2 : ℝ := -0.284496736
  let a3 : ℝ := 1.421413741
  let a4 : ℝ := -1.453152027
  let a5 : ℝ := 1.061405429
  let p : ℝ := 0.3275911
  let sign : ℝ := if x < 0 then -1 else 1
  let x' := |x|
  let t := 1 / (1 + p * x')
  let y := 1 - (((((a5 * t + a4) * t) + a3) * t + a2) * t + a1) * t * Real.exp (-x' * x')
  sign * y

/-- `normal_cdf` of `src/statistics.rs` (lines 203–205). -/
noncomputable def normal_cdf (x : ℝ) : ℝ :=
  0.5 * (1 + erf (x / Real.sqrt 2))

/-- `paired_t_test` of `src/statistics.rs` (lines 39–107).  The Rust
function asserts that both slices have the same length; the assertion
failure is modelled as `none`.  The source computes the p-value by the
same normal approximation in both the `df > 30` and the small-sample
branch, so the modelled body has a single p-value expression. -/
noncomputable def paired_t_test (method_a method_b : List ℝ) (alpha : ℝ) :
    Option TTestResult :=
  if method_a.length ≠ method_b.length then none
  else if method_a.length < 2 then
    some ⟨0, 1, 0, 0, 0, False⟩
  else
    let differences := (method_a.zip method_b).map (fun ab => ab.1 - ab.2)
    let mean_diff := differences.sum / (differences.length : ℝ)
    let variance := (differences.map (fun d => (d - mean_diff) ^ 2)).sum /
      ((differences.length - 1 : ℕ) : ℝ)
    let std_error := Real.sqrt (variance / (differences.length : ℝ))
    let t_statistic := if std_error > 1e-10 then mean_diff / std_error else 0
    let df := differences.length - 1
    let p_value := 2 * (1 - normal_cdf |t_statistic|)
    some ⟨t_statistic, p_value, df, mean_diff, std_error, p_value < alpha⟩

/-- Claim C5: for every pair of equal-length score vectors with fewer than
2 paired observations and every alpha, `paired_t_test` returns the neutral
result `t = 0`, `p = 1`, `df = 0`, `mean_difference = 0`, `std_error = 0`,
`significant = false`, without erroring. -/
theorem paired_t_test_too_few_samples (a b : List ℝ) (alpha : ℝ)
    (hlen : a.length = b.length) (hlt : a.length < 2) :
    paired_t_test a b alpha = some ⟨0, 1, 0, 0, 0, False⟩ := by
  unfold paired_t_test
  rw [if_neg (by omega), if_pos hlt]

/-- Witness for C5 at the single pair `([1/2], [1/4])`, `alpha = 1/20`. -/
theorem paired_t_test_too_few_samples_witness :
    paired_t_test [(1 : ℝ) / 2] [1 / 4] (1 / 20) = some ⟨0, 1, 0, 0, 0, False⟩ :=
  paired_t_test_too_few_samples [(1 : ℝ) / 2] [1 / 4] (1 / 20) rfl (by decide)

/-- An f64 value tracked for finiteness: `some x` is the finite value `x`,
`none` is a non-finite result (NaN or an infinity).  Used to model
`confidence_interval`, whose unguarded `0/0` produces NaN. -/
def FV : Type := Option ℝ

/-- f64 addition: non-finite operands poison the result (as NaN does). -/
noncomputable def fAdd : FV → FV → FV
  | some x, some y => some (x + y)
  | _, _ => none

/-- f64 subtraction with NaN propagation. -/
noncomputable def fSub : FV → FV → FV
  | some x, some y => some (x - y)
  | _, _ => none

/-- f64 multiplication with NaN propagation. -/
noncomputable def fMul : FV → FV → FV
  | some x, some y => some (x * y)
  | _, _ => none

/-- f64 division: a zero divisor yields a non-finite result (`0/0` is NaN,
`x/0` an infinity), and non-finite operands propagate. -/
noncomputable def fDiv : FV → FV → FV
  | some x, some y => if y = 0 then none else some (x / y)
  | _, _ => none

/-- f64 square root: NaN on negative input, NaN propagation otherwise. -/
noncomputable def fSqrt : FV → FV
  | some x => if x < 0 then none else some (Real.sqrt x)
  | none => none

/-- f64 natural logarithm: non-finite on non-positive input (`ln 0 = -∞`,
`ln` of a negative is NaN). -/
noncomputable def fLn : FV → FV
  | some x => if x ≤ 0 then none else some (Real.log x)
  | none => none

/-- Sum of a list of tracked f64 values. -/
noncomputable def fSum (l : List FV) : FV :=
  l.foldr fAdd (some 0)

/-- The `p > 0.5` branch of `normal_quantile` in `src/statistics.rs`
(lines 231–234): the Beasley–Springer–Moro-style rational approximation
`t - (2.515517 + 0.802853 t + 0.010328 t²) /
(1 + 1.432788 t + 0.189269 t² + 0.001308 t³)` with
`t = sqrt(-2 ln(1 - p))`. -/
noncomputable def normalQuantileBody (p : ℝ) : FV :=
  let t := fSqrt (fMul (some (-2)) (fLn (some (1 - p))))
  fSub t (fDiv
    (fAdd (fAdd (some 2.515517) (fMul (some 0.802853) t))
      (fMul (some 0.010328) (fMul t t)))
    (fAdd (fAdd (fAdd (some 1) (fMul (some 1.432788) t))
      (fMul (some 0.189269) (fMul t t)))
      (fMul (some 0.001308) (fMul t (fMul t t)))))

/-- `normal_quantile` of `src/statistics.rs` (lines 227–237).  The source
recursion `p < 0.5 → -normal_quantile(1-p)` has depth at most one (the
argument `1-p` then exceeds `0.5`), so it is unrolled here. -/
noncomputable def normal_quantile (p : ℝ) : FV :=
  if p < 0.5 then fMul (some (-1)) (normalQuantileBody (1 - p))
  else if 0.5 < p then normalQuantileBody p
  else some 0

/-- `confidence_interval` of `src/statistics.rs` (lines 129–151), with f64
finiteness tracked: empty input short-circuits to `(0.0, 0.0)`; otherwise
mean, sample variance (divided by `n - 1`), standard error and
`z * se` margin are computed and the bounds are `mean ∓ margin`. -/
noncomputable def confidence_interval (scores : List ℝ) (confidence : ℝ) : FV × FV :=
  if scores = [] then (some 0, some 0)
  else
    let n := scores.length
    let mean := fDiv (some scores.sum) (some (n : ℝ))
    let variance := fDiv
      (fSum (scores.map (fun s => fMul (fSub (some s) mean) (fSub (some s) mean))))
      (some ((n - 1 : ℕ) : ℝ))
    let std_dev := fSqrt variance
    let se := fDiv std_dev (fSqrt (some (n : ℝ)))
    let alpha := 1 - confidence
    let z := normal_quantile (1 - alpha / 2)
    let margin := fMul z se
    (fSub mean margin, fAdd mean margin)

/-- Claim C10: for every single-element input `[x]` and every confidence
level, `confidence_interval` divides the sample variance by `n - 1 = 0`,
so both returned bounds are non-finite (NaN); the `(0.0, 0.0)` fallback
applies only to the empty input. -/
theorem confidence_interval_singleton_unguarded (x conf : ℝ) :
    confidence_interval [x] conf = (none, none) ∧
    confidence_interval [] conf = (some 0, some 0) := by
  constructor
  · unfold confidence_interval
    rw [if_neg (by simp)]
    simp only [List.length_cons, List.length_nil, Nat.zero_add]
    have hvar : fDiv
        (fSum ([x].map (fun s => fMul (fSub (some s)
          (fDiv (some ([x] : List ℝ).sum) (some ((1 : ℕ) : ℝ))))
          (fSub (some s) (fDiv (some ([x] : List ℝ).sum) (some ((1 : ℕ) : ℝ)))))))
        (some ((1 - 1 : ℕ) : ℝ)) = none := by
      have h0 : ((1 - 1 : ℕ) : ℝ) = 0 := by norm_num
      rw [h0]
      cases fSum ([x].map (fun s => fMul (fSub (some s)
          (fDiv (some ([x] : List ℝ).sum) (some ((1 : ℕ) : ℝ))))
          (fSub (some s) (fDiv (some ([x] : List ℝ).sum) (some ((1 : ℕ) : ℝ)))))) with
      | none => rfl
      | some v => simp [fDiv]
    rw [hvar]
    have hmean : fDiv (some ([x] : List ℝ).sum) (some ((1 : ℕ) : ℝ)) = some x := by
      simp [fDiv, List.sum_cons]
    rw [hmean]
    cases hz : normal_quantile (1 - (1 - conf) / 2) with
    | none => simp [fSqrt, fDiv, fMul, fSub, fAdd]
    | some z => simp [fSqrt, fDiv, fMul, fSub, fAdd]
  · unfold confidence_interval
    rw [if_pos rfl]

end Statistics

section TrecIngestion

/-- Decidable equality for `Except`, so that concrete parses can be
checked by `decide`. -/
instance {ε α : Type} [DecidableEq ε] [DecidableEq α] : DecidableEq (Except ε α) := fun a b =>
  match a, b with
  | Except.error e, Except.error f =>
      if h : e = f then isTrue (congrArg Except.error h)
      else isFalse (fun hc => h (Except.error.inj hc))
  | Except.ok x, Except.ok y =>
      if h : x = y then isTrue (congrArg Except.ok h)
      else isFalse (fun hc => h (Except.ok.inj hc))
  | Except.error _, Except.ok _ => isFalse (fun hc => Except.noConfusion hc)
  | Except.ok _, Except.error _ => isFalse (fun hc => Except.noConfusion hc)

/-- `trim` of a Rust string, at the character level: leading and trailing
whitespace removed. -/
def trimChars (cs : List Char) : List Char :=
  ((cs.dropWhile Char.isWhitespace).reverse.dropWhile Char.isWhitespace).reverse

/-- Accumulator loop for `split_whitespace`: `cur` holds the characters of
the token being built, in reverse. -/
def splitWsAux : List Char → List Char → List (List Char)
  | [], [] => []
  | [], cur => [cur.reverse]
  | c :: cs, cur =>
      if c.isWhitespace then
        if cur = [] then splitWsAux cs []
        else cur.reverse :: splitWsAux cs []
      else splitWsAux cs (c :: cur)

/-- `split_whitespace` of a Rust string: maximal runs of non-whitespace
characters. -/
def splitWs (cs : List Char) : List (List Char) :=
  splitWsAux cs []

/-- Numeric value of a digit string (most significant first). -/
def digitsVal (cs : List Char) : ℕ :=
  cs.foldl (fun acc c => acc * 10 + (c.toNat - 48)) 0

/-- All characters are ASCII digits. -/
def allDigits (cs : List Char) : Bool :=
  cs.all Char.isDigit

/-- Rust `str::parse` for an unsigned integer of width `bits` (`u32` for
qrel relevance, `usize` for run rank): an optional leading `+`, then one or
more digits, and the value must fit in the type. -/
def parseUInt? (bits : ℕ) (cs : List Char) : Option ℕ :=
  let body := match cs with
    | '+' :: rest => rest
    | _ => cs
  if body ≠ [] ∧ allDigits body ∧ digitsVal body < 2 ^ bits then some (digitsVal body)
  else none

/-- Result of parsing an `f32` token: a finite value (kept as an exact
rational — rounding to the nearest representable `f32`, and overflow
saturation to infinity, are not modelled; no claim depends on them) or a
non-finite value (`inf`/`NaN` literals). -/
inductive FloatVal where
  | finite (q : ℚ)
  | nonfinite
deriving DecidableEq

/-- ASCII lower-casing of one character (for the case-insensitive
`inf`/`infinity`/`nan` float literals). -/
def lowerAscii (c : Char) : Char :=
  if 'A' ≤ c ∧ c ≤ 'Z' then Char.ofNat (c.toNat + 32) else c

/-- Split a character list at the first character satisfying `p`,
returning the parts before and after it, or `none` if there is none. -/
def splitFirst (p : Char → Bool) : List Char → Option (List Char × List Char)
  | [] => none
  | c :: cs =>
      if p c then some ([], cs)
      else match splitFirst p cs with
        | none => none
        | some pr => some (c :: pr.1, pr.2)

/-- The mantissa of the Rust float grammar:
`Digit+ | Digit+ . Digit* | Digit* . Digit+`, valued as an exact
rational. -/
def parseMantissa? (cs : List Char) : Option ℚ :=
  match splitFirst (fun c => c = '.') cs with
  | none => if cs ≠ [] ∧ allDigits cs then some ((digitsVal cs : ℚ)) else none
  | some (ip, fp) =>
      if fp.any (fun c => c = '.') then none
      else if (ip ≠ [] ∨ fp ≠ []) ∧ allDigits ip ∧ allDigits fp then
        some ((digitsVal ip : ℚ) + (digitsVal fp : ℚ) / 10 ^ fp.length)
      else none

/-- The exponent of the Rust float grammar: optional sign, then digits. -/
def parseExp? (cs : List Char) : Option ℤ :=
  let se : ℤ × List Char := match cs with
    | '+' :: rest => (1, rest)
    | '-' :: rest => (-1, rest)
    | _ => (1, cs)
  if se.2 ≠ [] ∧ allDigits se.2 then some (se.1 * (digitsVal se.2 : ℤ)) else none

/-- Rust `str::parse::<f32>`: optional sign; `inf`/`infinity`/`nan`
(case-insensitive) give a non-finite value; otherwise mantissa with
optional `e`/`E` exponent. -/
def parseF32? (cs : List Char) : Option FloatVal :=
  let sb : ℚ × List Char := match cs with
    | '+' :: rest => (1, rest)
    | '-' :: rest => (-1, rest)
    | _ => (1, cs)
  let lower := sb.2.map lowerAscii
  if lower = "inf".data ∨ lower = "infinity".data ∨ lower = "nan".data then
    some FloatVal.nonfinite
  else
    match splitFirst (fun c => c = 'e' ∨ c = 'E') sb.2 with
    | none => (parseMantissa? sb.2).map (fun m => FloatVal.finite (sb.1 * m))
    | some me =>
        match parseMantissa? me.1, parseExp? me.2 with
        | some m, some e => some (FloatVal.finite (sb.1 * m * (10 : ℚ) ^ e))
        | _, _ => none

/-- The `TrecRun` record of `src/trec.rs` (lines 13–19); the `f32` score is
kept as an exact rational. -/
structure TrecRun where
  query_id : String
  doc_id : String
  rank : ℕ
  score : ℚ
  run_tag : String
deriving DecidableEq

/-- The `Qrel` record of `src/trec.rs` (lines 23–27). -/
structure Qrel where
  query_id : String
  doc_id : String
  relevance : ℕ
deriving DecidableEq

/-- The distinct `anyhow` parse errors raised by `load_trec_runs` and
`load_qrels` in `src/trec.rs` (line numbers and raw line text carried by
the messages are dropped; the distinguishing content is kept). -/
inductive ParseError where
  | runExpectedQ0 (found : List Char)
  | runTooFewTokens (found : ℕ)
  | runInvalidRank (tok : List Char)
  | runInvalidScore (tok : List Char)
  | runNonFiniteScore
  | qrelTooFewTokens (found : ℕ)
  | qrelNot0 (found : List Char)
  | qrelInvalidRelevance (tok : List Char)
deriving DecidableEq

/-- `" ".join` of Rust: tokens re-joined with single spaces. -/
def joinSpace : List (List Char) → List Char
  | [] => []
  | [t] => t
  | t :: ts => t ++ ' ' :: joinSpace ts

/-- One iteration of the `load_trec_runs` loop of `src/trec.rs`
(lines 49–111): trim; skip blank and `#` lines; split on whitespace;
fewer than 6 tokens is an error (with the specific `Q0` message when
exactly 5 tokens are present and the second is not `Q0`); the second token
must be `Q0`; the rank must parse as an unsigned integer and the score as
a finite `f32`; tokens from the sixth onward are joined with single spaces
into the run tag (`parts[5..].join(" ")` when more than 6 tokens,
`parts[5]` alone otherwise). -/
def parseRunLine (line : List Char) : Except ParseError (Option TrecRun) :=
  let t := trimChars line
  if t = [] then Except.ok none
  else if t.head? = some '#' then Except.ok none
  else
    let parts := splitWs t
    if parts.length < 6 then
      if parts.length = 5 ∧ parts.getD 1 [] ≠ "Q0".data then
        Except.error (ParseError.runExpectedQ0 (parts.getD 1 []))
      else Except.error (ParseError.runTooFewTokens parts.length)
    else if parts.getD 1 [] ≠ "Q0".data then
      Except.error (ParseError.runExpectedQ0 (parts.getD 1 []))
    else
      match parseUInt? 64 (parts.getD 3 []) with
      | none => Except.error (ParseError.runInvalidRank (parts.getD 3 []))
      | some rank =>
        match parseF32? (parts.getD 4 []) with
        | none => Except.error (ParseError.runInvalidScore (parts.getD 4 []))
        | some FloatVal.nonfinite => Except.error ParseError.runNonFiniteScore
        | some (FloatVal.finite score) =>
            let runTag := if parts.length > 6 then joinSpace (parts.drop 5)
              else parts.getD 5 []
            Except.ok (some ⟨⟨parts.getD 0 []⟩, ⟨parts.getD 2 []⟩, rank, score, ⟨runTag⟩⟩)

/-- `load_trec_runs` of `src/trec.rs` over in-memory lines: any line error
aborts the whole parse. -/
def load_trec_runs : List String → Except ParseError (List TrecRun)
  | [] => Except.ok []
  | l :: ls =>
      match parseRunLine l.data with
      | Except.error e => Except.error e
      | Except.ok none => load_trec_runs ls
      | Except.ok (some r) =>
          match load_trec_runs ls with
          | Except.error e => Except.error e
          | Except.ok rs => Except.ok (r :: rs)

/-- One iteration of the `load_qrels` loop of `src/trec.rs`
(lines 136–170): trim; skip blank and `#` lines; split on whitespace;
fewer than 4 tokens is an error; the second token must be the literal `0`;
the relevance must parse as a `u32`. -/
def parseQrelLine (line : List Char) : Except ParseError (Option Qrel) :=
  let t := trimChars line
  if t = [] then Except.ok none
  else if t.head? = some '#' then Except.ok none
  else
    let parts := splitWs t
    if parts.length < 4 then
      Except.error (ParseError.qrelTooFewTokens parts.length)
    else if parts.getD 1 [] ≠ "0".data then
      Except.error (ParseError.qrelNot0 (parts.getD 1 []))
    else
      match parseUInt? 32 (parts.getD 3 []) with
      | none => Except.error (ParseError.qrelInvalidRelevance (parts.getD 3 []))
      | some relevance =>
          Except.ok (some ⟨⟨parts.getD 0 []⟩, ⟨parts.getD 2 []⟩, relevance⟩)

/-- `load_qrels` of `src/trec.rs` over in-memory lines: any line error
aborts the whole parse. -/
def load_qrels : List String → Except ParseError (List Qrel)
  | [] => Except.ok []
  | l :: ls =>
      match parseQrelLine l.data with
      | Except.error e => Except.error e
      | Except.ok none => load_qrels ls
      | Except.ok (some q) =>
          match load_qrels ls with
          | Except.error e => Except.error e
          | Except.ok qs => Except.ok (q :: qs)

end TrecIngestion

section ClaimC7

/-- Counterexample to C7 as stated: a qrel line with five whitespace
tokens is accepted — the extra token is silently ignored — rather than
being a hard parse error (`load_qrels` checks only `parts.len() < 4`). -/
theorem qrel_five_token_line_accepted :
    (splitWs (trimChars "q1 0 d1 2 extra".data)).length = 5 ∧
    parseQrelLine "q1 0 d1 2 extra".data = Except.ok (some ⟨"q1", "d1", 2⟩) ∧
    load_qrels ["q1 0 d1 2 extra"] = Except.ok [⟨"q1", "d1", 2⟩] := by
  decide

/-- Claim C7 (amended): qrel parsing accepts a non-blank, non-comment line
exactly when it has at least 4 whitespace-separated tokens with the second
the literal `0` and the fourth a valid non-negative (`u32`) integer; tokens
beyond the fourth are ignored.  Every other non-blank, non-comment line is
a hard parse error, and a line error is fatal to the whole file parse. -/
theorem qrel_line_acceptance (line : String)
    (hne : trimChars line.data ≠ [])
    (hnc : (trimChars line.data).head? ≠ some '#') :
    ((∃ q, parseQrelLine line.data = Except.ok (some q)) ↔
      (4 ≤ (splitWs (trimChars line.data)).length ∧
       (splitWs (trimChars line.data)).getD 1 [] = "0".data ∧
       (parseUInt? 32 ((splitWs (trimChars line.data)).getD 3 [])).isSome = true)) ∧
    ((∃ q, parseQrelLine line.data = Except.ok (some q)) ∨
      (∃ e, parseQrelLine line.data = Except.error e)) ∧
    (∀ e ls, parseQrelLine line.data = Except.error e →
      load_qrels (line :: ls) = Except.error e) := by
  have hstep : parseQrelLine line.data =
      (if (splitWs (trimChars line.data)).length < 4 then
        Except.error (ParseError.qrelTooFewTokens (splitWs (trimChars line.data)).length)
      else if (splitWs (trimChars line.data)).getD 1 [] ≠ "0".data then
        Except.error (ParseError.qrelNot0 ((splitWs (trimChars line.data)).getD 1 []))
      else
        match parseUInt? 32 ((splitWs (trimChars line.data)).getD 3 []) with
        | none => Except.error
            (ParseError.qrelInvalidRelevance ((splitWs (trimChars line.data)).getD 3 []))
        | some relevance =>
            Except.ok (some ⟨⟨(splitWs (trimChars line.data)).getD 0 []⟩,
              ⟨(splitWs (trimChars line.data)).getD 2 []⟩, relevance⟩)) := by
    unfold parseQrelLine
    rw [if_neg hne, if_neg hnc]
  refine ⟨⟨fun hacc => ?_, fun hcond => ?_⟩, ?_, fun e ls herr => ?_⟩
  · obtain ⟨q, hq⟩ := hacc
    rw [hstep] at hq
    by_cases h4 : (splitWs (trimChars line.data)).length < 4
    · rw [if_pos h4] at hq
      exact Except.noConfusion hq
    · rw [if_neg h4] at hq
      by_cases h0 : (splitWs (trimChars line.data)).getD 1 [] = "0".data
      · rw [if_neg (fun hx => hx h0)] at hq
        cases hU : parseUInt? 32 ((splitWs (trimChars line.data)).getD 3 []) with
        | none => rw [hU] at hq; exact Except.noConfusion hq
        | some n => exact ⟨by omega, h0, rfl⟩
      · rw [if_pos h0] at hq
        exact Except.noConfusion hq
  · obtain ⟨h4, h0, hU⟩ := hcond
    obtain ⟨n, hn⟩ := Option.isSome_iff_exists.mp hU
    refine ⟨⟨⟨(splitWs (trimChars line.data)).getD 0 []⟩,
      ⟨(splitWs (trimChars line.data)).getD 2 []⟩, n⟩, ?_⟩
    rw [hstep, if_neg (by omega), if_neg (fun hx => hx h0), hn]
  · rw [hstep]
    by_cases h4 : (splitWs (trimChars line.data)).length < 4
    · rw [if_pos h4]
      exact Or.inr ⟨_, rfl⟩
    · rw [if_neg h4]
      by_cases h0 : (splitWs (trimChars line.data)).getD 1 [] = "0".data
      · rw [if_neg (fun hx => hx h0)]
        cases parseUInt? 32 ((splitWs (trimChars line.data)).getD 3 []) with
        | none => exact Or.inr ⟨_, rfl⟩
        | some n => exact Or.inl ⟨_, rfl⟩
      · rw [if_pos h0]
        exact Or.inr ⟨_, rfl⟩
  · show (match parseQrelLine line.data with
      | Except.error e => Except.error e
      | Except.ok none => load_qrels ls
      | Except.ok (some q) =>
          match load_qrels ls with
          | Except.error e => Except.error e
          | Except.ok qs => Except.ok (q :: qs)) = Except.error e
    rw [herr]

/-- Witness for the amended C7 at the concrete accepted line `"7 0 dA 3"`. -/
theorem qrel_line_acceptance_witness :
    ((∃ q, parseQrelLine "7 0 dA 3".data = Except.ok (some q)) ↔
      (4 ≤ (splitWs (trimChars "7 0 dA 3".data)).length ∧
       (splitWs (trimChars "7 0 dA 3".data)).getD 1 [] = "0".data ∧
       (parseUInt? 32 ((splitWs (trimChars "7 0 dA 3".data)).getD 3 [])).isSome = true)) ∧
    ((∃ q, parseQrelLine "7 0 dA 3".data = Except.ok (some q)) ∨
      (∃ e, parseQrelLine "7 0 dA 3".data = Except.error e)) ∧
    (∀ e ls, parseQrelLine "7 0 dA 3".data = Except.error e →
      load_qrels ("7 0 dA 3" :: ls) = Except.error e) :=
  qrel_line_acceptance "7 0 dA 3" (by decide) (by decide)

end ClaimC7

section ClaimC8

/-- `true` exactly when the token parses as a finite `f32` score. -/
def finiteScore (cs : List Char) : Bool :=
  match parseF32? cs with
  | some (FloatVal.finite _) => true
  | _ => false

/-- Claim C8: for a non-blank, non-comment run line, fewer than 6 tokens is
a hard parse error, and with exactly 5 tokens whose second is not `Q0` the
error specifically flags the missing `Q0` field; with 6 or more tokens
(second token `Q0`, valid unsigned rank, finite float score) a record is
produced whose `run_tag` is all tokens from the sixth onward joined with
single spaces. -/
theorem run_line_parsing (line : String)
    (hne : trimChars line.data ≠ [])
    (hnc : (trimChars line.data).head? ≠ some '#') :
    ((splitWs (trimChars line.data)).length < 6 →
      parseRunLine line.data = Except.error
        (if (splitWs (trimChars line.data)).length = 5 ∧
            (splitWs (trimChars line.data)).getD 1 [] ≠ "Q0".data
         then ParseError.runExpectedQ0 ((splitWs (trimChars line.data)).getD 1 [])
         else ParseError.runTooFewTokens (splitWs (trimChars line.data)).length)) ∧
    (6 ≤ (splitWs (trimChars line.data)).length →
      (splitWs (trimChars line.data)).getD 1 [] = "Q0".data →
      (parseUInt? 64 ((splitWs (trimChars line.data)).getD 3 [])).isSome = true →
      finiteScore ((splitWs (trimChars line.data)).getD 4 []) = true →
      ∃ r : TrecRun, parseRunLine line.data = Except.ok (some r) ∧
        r.query_id = ⟨(splitWs (trimChars line.data)).getD 0 []⟩ ∧
        r.doc_id = ⟨(splitWs (trimChars line.data)).getD 2 []⟩ ∧
        r.run_tag = ⟨joinSpace ((splitWs (trimChars line.data)).drop 5)⟩) := by
  have hstep : parseRunLine line.data =
      (if (splitWs (trimChars line.data)).length < 6 then
        if (splitWs (trimChars line.data)).length = 5 ∧
            (splitWs (trimChars line.data)).getD 1 [] ≠ "Q0".data then
          Except.error (ParseError.runExpectedQ0 ((splitWs (trimChars line.data)).getD 1 []))
        else Except.error (ParseError.runTooFewTokens (splitWs (trimChars line.data)).length)
      else if (splitWs (trimChars line.data)).getD 1 [] ≠ "Q0".data then
        Except.error (ParseError.runExpectedQ0 ((splitWs (trimChars line.data)).getD 1 []))
      else
        match parseUInt? 64 ((splitWs (trimChars line.data)).getD 3 []) with
        | none => Except.error (ParseError.runInvalidRank ((splitWs (trimChars line.data)).getD 3 []))
        | some rank =>
          match parseF32? ((splitWs (trimChars line.data)).getD 4 []) with
          | none => Except.error (ParseError.runInvalidScore ((splitWs (trimChars line.data)).getD 4 []))
          | some FloatVal.nonfinite => Except.error ParseError.runNonFiniteScore
          | some (FloatVal.finite score) =>
              Except.ok (some ⟨⟨(splitWs (trimChars line.data)).getD 0 []⟩,
                ⟨(splitWs (trimChars line.data)).getD 2 []⟩, rank, score,
                ⟨if (splitWs (trimChars line.data)).length > 6 then
                    joinSpace ((splitWs (trimChars line.data)).drop 5)
                  else (splitWs (trimChars line.data)).getD 5 []⟩⟩)) := by
    unfold parseRunLine
    rw [if_neg hne, if_neg hnc]
  constructor
  · intro h6
    rw [hstep, if_pos h6]
    by_cases h5 : (splitWs (trimChars line.data)).length = 5 ∧
        (splitWs (trimChars line.data)).getD 1 [] ≠ "Q0".data
    · rw [if_pos h5, if_pos h5]
    · rw [if_neg h5, if_neg h5]
  · intro h6 hQ0 hrank hscore
    obtain ⟨n, hn⟩ := Option.isSome_iff_exists.mp hrank
    have hq : ∃ q, parseF32? ((splitWs (trimChars line.data)).getD 4 []) =
        some (FloatVal.finite q) := by
      unfold finiteScore at hscore
      cases hF : parseF32? ((splitWs (trimChars line.data)).getD 4 []) with
      | none => rw [hF] at hscore; exact Bool.noConfusion hscore
      | some v =>
        cases v with
        | finite q => exact ⟨q, rfl⟩
        | nonfinite => rw [hF] at hscore; exact Bool.noConfusion hscore
    obtain ⟨q, hqe⟩ := hq
    have htag : (if (splitWs (trimChars line.data)).length > 6 then
        joinSpace ((splitWs (trimChars line.data)).drop 5)
      else (splitWs (trimChars line.data)).getD 5 []) =
        joinSpace ((splitWs (trimChars line.data)).drop 5) := by
      by_cases h7 : (splitWs (trimChars line.data)).length > 6
      · rw [if_pos h7]
      · rw [if_neg h7]
        have hlen : (splitWs (trimChars line.data)).length = 6 := by omega
        have h5lt : 5 < (splitWs (trimChars line.data)).length := by omega
        have h6le : (splitWs (trimChars line.data)).length ≤ 6 := by omega
        rw [List.drop_eq_getElem_cons h5lt]
        rw [show (5 + 1) = 6 from rfl, List.drop_eq_nil_of_le h6le]
        rw [List.getD_eq_getElem _ _ h5lt]
        rfl
    refine ⟨⟨⟨(splitWs (trimChars line.data)).getD 0 []⟩,
      ⟨(splitWs (trimChars line.data)).getD 2 []⟩, n, q,
      ⟨joinSpace ((splitWs (trimChars line.data)).drop 5)⟩⟩, ?_, rfl, rfl, rfl⟩
    rw [hstep, if_neg (by omega), if_neg (fun hx => hx hQ0), hn, hqe, htag]

/-- Witness for C8: the 5-token line `"q X0 d 12 3"` yields the specific
missing-`Q0` error, and the 7-token line `"q Q0 d 12 3 my tag"` yields a
record whose run tag is `"my tag"`. -/
theorem run_line_parsing_witness :
    parseRunLine "q X0 d 12 3".data = Except.error
      (if (splitWs (trimChars "q X0 d 12 3".data)).length = 5 ∧
          (splitWs (trimChars "q X0 d 12 3".data)).getD 1 [] ≠ "Q0".data
       then ParseError.runExpectedQ0 ((splitWs (trimChars "q X0 d 12 3".data)).getD 1 [])
       else ParseError.runTooFewTokens (splitWs (trimChars "q X0 d 12 3".data)).length) ∧
    (∃ r : TrecRun, parseRunLine "q Q0 d 12 3 my tag".data = Except.ok (some r) ∧
      r.query_id = ⟨(splitWs (trimChars "q Q0 d 12 3 my tag".data)).getD 0 []⟩ ∧
      r.doc_id = ⟨(splitWs (trimChars "q Q0 d 12 3 my tag".data)).getD 2 []⟩ ∧
      r.run_tag = ⟨joinSpace ((splitWs (trimChars "q Q0 d 12 3 my tag".data)).drop 5)⟩) :=
  ⟨(run_line_parsing "q X0 d 12 3" (by decide) (by decide)).1 (by decide),
   (run_line_parsing "q Q0 d 12 3 my tag" (by decide) (by decide)).2
     (by decide) (by decide) (by decide) (by decide)⟩

end ClaimC8

section BatchEvaluator

/-- Lookup in an association list, modelling `HashMap::get`.  (HashMaps are
modelled as insertion-ordered association lists; iteration order of a Rust
`HashMap` is arbitrary, and no claim depends on it.) -/
def lookupAL {β : Type} : List (String × β) → String → Option β
  | [], _ => none
  | (k', v) :: rest, k => if k' = k then some v else lookupAL rest k

/-- Update-or-insert in an association list: modelling
`map.entry(k).or_insert(dflt)` followed by a mutation `f` of the entry
(`HashMap::insert` is the special case of a constant `f`). -/
def alterAL {β : Type} : List (String × β) → String → (β → β) → β → List (String × β)
  | [], k, f, dflt => [(k, f dflt)]
  | (k', v) :: rest, k, f, dflt =>
      if k' = k then (k', f v) :: rest else (k', v) :: alterAL rest k f dflt

/-- One step of the insertion sort used to model
`sort_by(|a, b| b.1.total_cmp(&a.1))` (score descending). -/
def insertDesc (x : String × ℚ) : List (String × ℚ) → List (String × ℚ)
  | [] => [x]
  | y :: ys => if y.2 ≤ x.2 then x :: y :: ys else y :: insertDesc x ys

/-- Sort `(doc_id, score)` pairs by score descending, modelling the
descending `total_cmp` sorts of `src/trec.rs` and `src/batch.rs` (ties are
left in whatever order the sort produces; no claim depends on tie order). -/
def sortDesc (l : List (String × ℚ)) : List (String × ℚ) :=
  l.foldr insertDesc []

/-- `group_runs_by_query` of `src/trec.rs` (lines 179–201): query →
run-tag → `(doc_id, score)` list, each inner list sorted by score
descending. -/
def group_runs_by_query (runs : List TrecRun) :
    List (String × List (String × List (String × ℚ))) :=
  let grouped := runs.foldl (fun acc r =>
    alterAL acc r.query_id (fun inner =>
      alterAL inner r.run_tag (fun l => l ++ [(r.doc_id, r.score)]) []) []) []
  grouped.map (fun qe => (qe.1, qe.2.map (fun te => (te.1, sortDesc te.2))))

/-- `group_qrels_by_query` of `src/trec.rs` (lines 206–217): query →
doc → relevance, later records overwriting earlier ones. -/
def group_qrels_by_query (qrels : List Qrel) : List (String × List (String × ℕ)) :=
  qrels.foldl (fun acc q =>
    alterAL acc q.query_id
      (fun inner => alterAL inner q.doc_id (fun _ => q.relevance) q.relevance) []) []

/-- The relevant-set construction of `evaluate_trec_batch`
(`src/batch.rs` lines 166–170): judged documents with grade `> 0`. -/
def relevantSet (queryQrels : List (String × ℕ)) : Finset String :=
  ((queryQrels.filter (fun p => decide (0 < p.2))).map Prod.fst).toFinset

/-- The metric-name dispatch table shared by `evaluate_batch_binary` and
`evaluate_trec_batch` (`src/batch.rs` lines 175–194): an unknown name
yields `none` (skipped with a diagnostic, not fatal).  Rational-valued
metrics are cast into `ℝ` to share a codomain with NDCG. -/
noncomputable def computeMetric (name : String) (ranked : List String)
    (relevant : Finset String) : Option ℝ :=
  match name with
  | "ndcg@10" => some (ndcg_at_k ranked relevant 10)
  | "ndcg@5" => some (ndcg_at_k ranked relevant 5)
  | "precision@10" => some ((precision_at_k ranked relevant 10 : ℚ) : ℝ)
  | "precision@5" => some ((precision_at_k ranked relevant 5 : ℚ) : ℝ)
  | "precision@1" => some ((precision_at_k ranked relevant 1 : ℚ) : ℝ)
  | "recall@10" => some ((recall_at_k ranked relevant 10 : ℚ) : ℝ)
  | "recall@5" => some ((recall_at_k ranked relevant 5 : ℚ) : ℝ)
  | "mrr" => some ((mrr ranked relevant : ℚ) : ℝ)
  | "ap" => some ((average_precision ranked relevant : ℚ) : ℝ)
  | "map" => some ((average_precision ranked relevant : ℚ) : ℝ)
  | "err@10" => some ((err_at_k ranked relevant 10 : ℚ) : ℝ)
  | "rbp@10" => some ((rbp_at_k ranked relevant 10 (0.95 : ℚ) : ℚ) : ℝ)
  | "f1@10" => some ((f_measure_at_k ranked relevant 10 1 : ℚ) : ℝ)
  | "success@10" => some ((success_at_k ranked relevant 10 : ℚ) : ℝ)
  | "r_precision" => some ((r_precision ranked relevant : ℚ) : ℝ)
  | _ => none

/-- The `QueryResults` struct of `src/batch.rs` (lines 9–12). -/
structure QueryResults where
  query_id : String
  metrics : List (String × ℝ)

/-- The `BatchResults` struct of `src/batch.rs` (lines 16–19). -/
structure BatchResults where
  query_results : List QueryResults
  aggregated : List (String × ℝ)

/-- The per-query metric loop of `src/batch.rs` (lines 174–199): compute
each requested metric, skipping unknown names. -/
noncomputable def evalMetrics (metrics : List String) (ranked : List String)
    (relevant : Finset String) : List (String × ℝ) :=
  metrics.filterMap (fun name => (computeMetric name ranked relevant).map (fun v => (name, v)))

/-- Fold one query's metric values into the running per-metric sums. -/
noncomputable def addSums (sums : List (String × ℝ)) (qm : List (String × ℝ)) :
    List (String × ℝ) :=
  qm.foldl (fun s p => alterAL s p.1 (fun x => x + p.2) 0) sums

/-- Fold one query's metric values into the running per-metric counts. -/
def addCounts (counts : List (String × ℕ)) (qm : List (String × ℝ)) :
    List (String × ℕ) :=
  qm.foldl (fun s p => alterAL s p.1 (fun x => x + 1) 0) counts

/-- The main query loop of `evaluate_trec_batch` (`src/batch.rs`
lines 144–205), with the per-query results, metric sums and metric counts
threaded as accumulators: a qrels query with no runs is skipped (`continue`),
otherwise the first run tag's list is re-sorted by score descending and
evaluated against the grade`> 0` relevant set. -/
noncomputable def trecLoop (runsBy : List (String × List (String × List (String × ℚ))))
    (metrics : List String) :
    List (String × List (String × ℕ)) → List QueryResults →
    List (String × ℝ) → List (String × ℕ) →
    List QueryResults × List (String × ℝ) × List (String × ℕ)
  | [], res, sums, counts => (res, sums, counts)
  | (qid, qq) :: rest, res, sums, counts =>
      match lookupAL runsBy qid with
      | none => trecLoop runsBy metrics rest res sums counts
      | some queryRuns =>
        match queryRuns with
        | [] => trecLoop runsBy metrics rest res sums counts
        | (_, rankedRun) :: _ =>
            let rankedIds := (sortDesc rankedRun).map Prod.fst
            let qm := evalMetrics metrics rankedIds (relevantSet qq)
            trecLoop runsBy metrics rest (res ++ [⟨qid, qm⟩])
              (addSums sums qm) (addCounts counts qm)

/-- `evaluate_trec_batch` of `src/batch.rs` (lines 130–220). -/
noncomputable def evaluate_trec_batch (runs : List TrecRun) (qrels : List Qrel)
    (metrics : List String) : BatchResults :=
  let runsBy := group_runs_by_query runs
  let qrelsBy := group_qrels_by_query qrels
  let out := trecLoop runsBy metrics qrelsBy [] [] []
  ⟨out.1, out.2.1.map (fun p => (p.1, p.2 / (((lookupAL out.2.2 p.1).getD 1 : ℕ) : ℝ)))⟩

end BatchEvaluator

section BatchLemmas

theorem lookupAL_alterAL_ne {β : Type} (m : List (String × β)) {k q : String}
    (f : β → β) (d : β) (hne : k ≠ q) :
    lookupAL (alterAL m k f d) q = lookupAL m q := by
  induction m with
  | nil => simp [alterAL, lookupAL, hne]
  | cons e rest ih =>
    obtain ⟨k', v⟩ := e
    unfold alterAL
    by_cases hk : k' = k
    · rw [if_pos hk]
      unfold lookupAL
      have : ¬ k' = q := by rw [hk]; exact hne
      rw [if_neg this, if_neg this]
    · rw [if_neg hk]
      unfold lookupAL
      by_cases hq : k' = q
      · rw [if_pos hq, if_pos hq]
      · rw [if_neg hq, if_neg hq, ih]

theorem lookupAL_eq_none {β : Type} (m : List (String × β)) {q : String}
    (h : q ∉ m.map Prod.fst) : lookupAL m q = none := by
  induction m with
  | nil => rfl
  | cons e rest ih =>
    unfold lookupAL
    rw [List.map_cons, List.mem_cons] at h
    push_neg at h
    rw [if_neg (fun hx => h.1 hx.symm)]
    exact ih h.2

theorem mem_keys_alterAL {β : Type} (m : List (String × β)) (k : String)
    (f : β → β) (d : β) (a : String) :
    a ∈ (alterAL m k f d).map Prod.fst ↔ a ∈ m.map Prod.fst ∨ a = k := by
  induction m with
  | nil => simp [alterAL]
  | cons e rest ih =>
    obtain ⟨k', v⟩ := e
    unfold alterAL
    by_cases hk : k' = k
    · rw [if_pos hk]
      subst hk
      simp only [List.map_cons, List.mem_cons]
      tauto
    · rw [if_neg hk]
      simp only [List.map_cons, List.mem_cons, ih]
      tauto

theorem keys_nodup_alterAL {β : Type} (m : List (String × β)) (k : String)
    (f : β → β) (d : β) (h : (m.map Prod.fst).Nodup) :
    ((alterAL m k f d).map Prod.fst).Nodup := by
  induction m with
  | nil => simp [alterAL]
  | cons e rest ih =>
    obtain ⟨k', v⟩ := e
    rw [List.map_cons, List.nodup_cons] at h
    unfold alterAL
    by_cases hk : k' = k
    · rw [if_pos hk]
      rw [List.map_cons, List.nodup_cons]
      exact h
    · rw [if_neg hk]
      rw [List.map_cons, List.nodup_cons]
      constructor
      · rw [mem_keys_alterAL]
        rintro (hmem | heq)
        · exact h.1 hmem
        · exact hk heq
      · exact ih h.2

theorem alterAL_forall {β : Type} {P : String × β → Prop} (m : List (String × β))
    (k : String) (f : β → β) (d : β)
    (hm : ∀ e ∈ m, P e) (hf : ∀ v, ((k, v) ∈ m ∨ v = d) → P (k, f v)) :
    ∀ e ∈ alterAL m k f d, P e := by
  induction m with
  | nil =>
    intro e he
    unfold alterAL at he
    rw [List.mem_singleton] at he
    subst he
    exact hf d (Or.inr rfl)
  | cons p rest ih =>
    obtain ⟨k', v⟩ := p
    intro e he
    unfold alterAL at he
    by_cases hk : k' = k
    · rw [if_pos hk] at he
      rw [List.mem_cons] at he
      rcases he with he | he
      · subst he
        subst hk
        exact hf v (Or.inl (List.mem_cons_self _ _))
      · exact hm e (List.mem_cons_of_mem _ he)
    · rw [if_neg hk] at he
      rw [List.mem_cons] at he
      rcases he with he | he
      · subst he
        exact hm _ (List.mem_cons_self _ _)
      · exact ih (fun x hx => hm x (List.mem_cons_of_mem _ hx))
          (fun v' hv' => hf v' (by
            rcases hv' with hv' | hv'
            · exact Or.inl (List.mem_cons_of_mem _ hv')
            · exact Or.inr hv')) e he

theorem group_qrels_inner_nodup (qrels : List Qrel) :
    ∀ e ∈ group_qrels_by_query qrels, (e.2.map Prod.fst).Nodup := by
  unfold group_qrels_by_query
  suffices h : ∀ (acc : List (String × List (String × ℕ))),
      (∀ e ∈ acc, (e.2.map Prod.fst).Nodup) →
      ∀ e ∈ qrels.foldl (fun acc q =>
        alterAL acc q.query_id
          (fun inner => alterAL inner q.doc_id (fun _ => q.relevance) q.relevance) []) acc,
        (e.2.map Prod.fst).Nodup by
    exact h [] (by intro e he; exact absurd he (List.not_mem_nil e))
  induction qrels with
  | nil => intro acc hacc; simpa using hacc
  | cons q rest ih =>
    intro acc hacc
    rw [List.foldl_cons]
    apply ih
    apply alterAL_forall
      (P := fun e : String × List (String × ℕ) => (e.2.map Prod.fst).Nodup)
    · exact hacc
    intro v hv
    rcases hv with hv | hv
    · exact keys_nodup_alterAL v q.doc_id (fun _ => q.relevance) q.relevance
        (hacc (q.query_id, v) hv)
    · subst hv
      exact keys_nodup_alterAL ([] : List (String × ℕ)) q.doc_id
        (fun _ => q.relevance) q.relevance (by simp)

theorem relevantSet_subset_keys {qq : List (String × ℕ)} {d : String}
    (h : d ∈ relevantSet qq) : d ∈ qq.map Prod.fst := by
  unfold relevantSet at h
  rw [List.mem_toFinset, List.mem_map] at h
  obtain ⟨p, hp, hd⟩ := h
  rw [List.mem_filter] at hp
  rw [List.mem_map]
  exact ⟨p, hp.1, hd⟩

theorem lookupAL_cons {β : Type} (k' : String) (v : β) (rest : List (String × β))
    (k : String) :
    lookupAL ((k', v) :: rest) k = if k' = k then some v else lookupAL rest k := rfl

theorem mem_relevantSet_iff (qq : List (String × ℕ)) (d : String)
    (hnd : (qq.map Prod.fst).Nodup) :
    d ∈ relevantSet qq ↔ ∃ g, lookupAL qq d = some g ∧ 0 < g := by
  induction qq with
  | nil => simp [relevantSet, lookupAL]
  | cons p rest ih =>
    obtain ⟨k, v⟩ := p
    rw [List.map_cons, List.nodup_cons] at hnd
    by_cases hk : k = d
    · subst hk
      have hdrest : k ∉ rest.map Prod.fst := hnd.1
      rw [lookupAL_cons, if_pos rfl]
      constructor
      · intro hmem
        unfold relevantSet at hmem
        rw [List.mem_toFinset, List.mem_map] at hmem
        obtain ⟨p', hp', hd'⟩ := hmem
        rw [List.mem_filter, List.mem_cons] at hp'
        rcases hp'.1 with he | he
        · refine ⟨v, rfl, ?_⟩
          have hv : 0 < p'.2 := of_decide_eq_true hp'.2
          rw [he] at hv
          exact hv
        · exfalso
          apply hdrest
          rw [List.mem_map]
          exact ⟨p', he, hd'⟩
      · intro ⟨g, hg, hgpos⟩
        have hv : v = g := Option.some.inj hg
        unfold relevantSet
        rw [List.mem_toFinset, List.mem_map]
        refine ⟨(k, v), ?_, rfl⟩
        rw [List.mem_filter]
        exact ⟨List.mem_cons_self _ _, decide_eq_true (by omega)⟩
    · have hstep : d ∈ relevantSet ((k, v) :: rest) ↔ d ∈ relevantSet rest := by
        unfold relevantSet
        rw [List.mem_toFinset, List.mem_toFinset]
        constructor
        · intro hmem
          rw [List.mem_map] at hmem
          obtain ⟨p', hp', hd'⟩ := hmem
          rw [List.mem_filter, List.mem_cons] at hp'
          rcases hp'.1 with he | he
          · exfalso
            apply hk
            rw [he] at hd'
            exact hd'
          · rw [List.mem_map]
            refine ⟨p', ?_, hd'⟩
            rw [List.mem_filter]
            exact ⟨he, hp'.2⟩
        · intro hmem
          rw [List.mem_map] at hmem
          obtain ⟨p', hp', hd'⟩ := hmem
          rw [List.mem_filter] at hp'
          rw [List.mem_map]
          refine ⟨p', ?_, hd'⟩
          rw [List.mem_filter]
          exact ⟨List.mem_cons_of_mem _ hp'.1, hp'.2⟩
      rw [hstep, ih hnd.2, lookupAL_cons, if_neg hk]

theorem alterAL_nil {β : Type} (k : String) (f : β → β) (d : β) :
    alterAL [] k f d = [(k, f d)] := rfl

theorem alterAL_cons {β : Type} (k' : String) (v : β) (rest : List (String × β))
    (k : String) (f : β → β) (d : β) :
    alterAL ((k', v) :: rest) k f d =
      if k' = k then (k', f v) :: rest else (k', v) :: alterAL rest k f d := rfl

theorem alterAL_filter_comm {β : Type} (m : List (String × β)) {k qid : String}
    (f : β → β) (d : β) (hk : k ≠ qid) :
    alterAL (m.filter (fun e => decide (e.1 ≠ qid))) k f d =
      (alterAL m k f d).filter (fun e => decide (e.1 ≠ qid)) := by
  induction m with
  | nil =>
    simp only [List.filter_nil, alterAL_nil]
    rw [List.filter_cons, if_pos (by simpa using hk), List.filter_nil]
  | cons e rest ih =>
    obtain ⟨k', v⟩ := e
    by_cases hq : k' = qid
    · rw [List.filter_cons, if_neg (by simp [hq])]
      have hkk : ¬ k' = k := by rw [hq]; exact fun hx => hk hx.symm
      rw [alterAL_cons, if_neg hkk, List.filter_cons, if_neg (by simp [hq])]
      exact ih
    · rw [List.filter_cons, if_pos (by simpa using hq)]
      by_cases hkk : k' = k
      · rw [alterAL_cons, if_pos hkk, alterAL_cons, if_pos hkk,
          List.filter_cons, if_pos (by simpa using hq)]
      · rw [alterAL_cons, if_neg hkk, alterAL_cons, if_neg hkk,
          List.filter_cons, if_pos (by simpa using hq), ih]

theorem filter_alterAL_self {β : Type} (m : List (String × β)) (qid : String)
    (f : β → β) (d : β) :
    (alterAL m qid f d).filter (fun e => decide (e.1 ≠ qid)) =
      m.filter (fun e => decide (e.1 ≠ qid)) := by
  induction m with
  | nil =>
    simp only [alterAL_nil, List.filter_nil]
    rw [List.filter_cons, if_neg (by simp), List.filter_nil]
  | cons e rest ih =>
    obtain ⟨k', v⟩ := e
    by_cases hq : k' = qid
    · rw [alterAL_cons, if_pos hq, List.filter_cons, if_neg (by simp [hq]),
        List.filter_cons, if_neg (by simp [hq])]
    · rw [alterAL_cons, if_neg hq, List.filter_cons, if_pos (by simpa using hq),
        List.filter_cons, if_pos (by simpa using hq), ih]

theorem group_qrels_filter (qrels : List Qrel) (qid : String) :
    group_qrels_by_query (qrels.filter (fun q => decide (q.query_id ≠ qid))) =
      (group_qrels_by_query qrels).filter (fun e => decide (e.1 ≠ qid)) := by
  unfold group_qrels_by_query
  suffices h : ∀ acc : List (String × List (String × ℕ)),
      (qrels.filter (fun q => decide (q.query_id ≠ qid))).foldl (fun acc q =>
        alterAL acc q.query_id
          (fun inner => alterAL inner q.doc_id (fun _ => q.relevance) q.relevance) [])
        (acc.filter (fun e => decide (e.1 ≠ qid))) =
      (qrels.foldl (fun acc q =>
        alterAL acc q.query_id
          (fun inner => alterAL inner q.doc_id (fun _ => q.relevance) q.relevance) []) acc).filter
        (fun e => decide (e.1 ≠ qid)) by
    simpa using h []
  induction qrels with
  | nil => intro acc; simp
  | cons q rest ih =>
    intro acc
    by_cases hq : q.query_id = qid
    · rw [List.filter_cons, if_neg (by simp [hq]), List.foldl_cons]
      have hstep : (alterAL acc q.query_id
          (fun inner => alterAL inner q.doc_id (fun _ => q.relevance) q.relevance) []).filter
            (fun e => decide (e.1 ≠ qid)) = acc.filter (fun e => decide (e.1 ≠ qid)) := by
        rw [hq]
        exact filter_alterAL_self acc qid _ []
      rw [← hstep]
      exact ih _
    · rw [List.filter_cons, if_pos (by simpa using hq), List.foldl_cons, List.foldl_cons]
      rw [alterAL_filter_comm acc _ [] hq]
      exact ih _

theorem group_runs_lookup_none (runs : List TrecRun) (qid : String)
    (h : ∀ r ∈ runs, r.query_id ≠ qid) :
    lookupAL (group_runs_by_query runs) qid = none := by
  unfold group_runs_by_query
  apply lookupAL_eq_none
  suffices hs : ∀ (rs : List TrecRun), (∀ r ∈ rs, r.query_id ≠ qid) →
      ∀ acc : List (String × List (String × List (String × ℚ))),
      qid ∉ acc.map Prod.fst →
      qid ∉ (rs.foldl (fun acc r =>
        alterAL acc r.query_id (fun inner =>
          alterAL inner r.run_tag (fun l => l ++ [(r.doc_id, r.score)]) []) []) acc).map
        Prod.fst by
    intro hmem
    apply hs runs h [] (by simp)
    rw [List.map_map] at hmem
    simpa using hmem
  intro rs
  induction rs with
  | nil => intro _ acc hacc; simpa using hacc
  | cons r rest ih =>
    intro hrs acc hacc
    rw [List.foldl_cons]
    refine ih (fun x hx => hrs x (List.mem_cons_of_mem _ hx)) _ ?_
    rw [mem_keys_alterAL]
    rintro (hmem | heq)
    · exact hacc hmem
    · exact hrs r (List.mem_cons_self _ _) heq.symm

theorem trecLoop_cons (runsBy : List (String × List (String × List (String × ℚ))))
    (metrics : List String) (k : String) (qq : List (String × ℕ))
    (rest : List (String × List (String × ℕ))) (res : List QueryResults)
    (sums : List (String × ℝ)) (counts : List (String × ℕ)) :
    trecLoop runsBy metrics ((k, qq) :: rest) res sums counts =
      match lookupAL runsBy k with
      | none => trecLoop runsBy metrics rest res sums counts
      | some [] => trecLoop runsBy metrics rest res sums counts
      | some ((_, rankedRun) :: _) =>
          trecLoop runsBy metrics rest
            (res ++ [⟨k, evalMetrics metrics ((sortDesc rankedRun).map Prod.fst)
              (relevantSet qq)⟩])
            (addSums sums (evalMetrics metrics ((sortDesc rankedRun).map Prod.fst)
              (relevantSet qq)))
            (addCounts counts (evalMetrics metrics ((sortDesc rankedRun).map Prod.fst)
              (relevantSet qq))) := by
  conv_lhs => unfold trecLoop
  rcases lookupAL runsBy k with _ | (_ | ⟨⟨tag, rankedRun⟩, rts⟩) <;> rfl

theorem trecLoop_skip_filter (runsBy : List (String × List (String × List (String × ℚ))))
    (metrics : List String) (qid : String) (hnone : lookupAL runsBy qid = none) :
    ∀ (entries : List (String × List (String × ℕ))) res sums counts,
      trecLoop runsBy metrics (entries.filter (fun e => decide (e.1 ≠ qid))) res sums counts =
        trecLoop runsBy metrics entries res sums counts := by
  intro entries
  induction entries with
  | nil => intro res sums counts; rfl
  | cons e rest ih =>
    obtain ⟨k, qq⟩ := e
    intro res sums counts
    by_cases hk : k = qid
    · rw [List.filter_cons, if_neg (by simp [hk]), trecLoop_cons]
      rw [hk, hnone]
      exact ih res sums counts
    · rw [List.filter_cons, if_pos (by simpa using hk), trecLoop_cons, trecLoop_cons]
      rcases hl : lookupAL runsBy k with _ | (_ | ⟨⟨tag, rankedRun⟩, rts⟩)
      · exact ih res sums counts
      · exact ih res sums counts
      · exact ih _ _ _

theorem trecLoop_results_mem (runsBy : List (String × List (String × List (String × ℚ))))
    (metrics : List String) :
    ∀ (entries : List (String × List (String × ℕ))) res sums counts qr,
      qr ∈ (trecLoop runsBy metrics entries res sums counts).1 →
      qr ∈ res ∨ (qr.query_id ∈ entries.map Prod.fst ∧
        lookupAL runsBy qr.query_id ≠ none) := by
  intro entries
  induction entries with
  | nil => intro res sums counts qr hqr; exact Or.inl hqr
  | cons e rest ih =>
    obtain ⟨k, qq⟩ := e
    intro res sums counts qr hqr
    rw [trecLoop_cons] at hqr
    rcases hl : lookupAL runsBy k with _ | (_ | ⟨⟨tag, rankedRun⟩, rts⟩) <;> rw [hl] at hqr
    · rcases ih res sums counts qr hqr with hin | ⟨hkey, hlk⟩
      · exact Or.inl hin
      · exact Or.inr ⟨by rw [List.map_cons]; exact List.mem_cons_of_mem _ hkey, hlk⟩
    · rcases ih res sums counts qr hqr with hin | ⟨hkey, hlk⟩
      · exact Or.inl hin
      · exact Or.inr ⟨by rw [List.map_cons]; exact List.mem_cons_of_mem _ hkey, hlk⟩
    · rcases ih _ _ _ qr hqr with hin | ⟨hkey, hlk⟩
      · rw [List.mem_append] at hin
        rcases hin with hin | hin
        · exact Or.inl hin
        · rw [List.mem_singleton] at hin
          subst hin
          refine Or.inr ⟨by rw [List.map_cons]; exact List.mem_cons_self _ _, ?_⟩
          rw [hl]
          exact fun hx => Option.noConfusion hx
      · exact Or.inr ⟨by rw [List.map_cons]; exact List.mem_cons_of_mem _ hkey, hlk⟩

end BatchLemmas

section ClaimC9

/-- Claim C9: in `evaluate_trec_batch`, a query id present in the qrels but
absent from the grouped runs is skipped entirely — the batch output is
identical to the output with that query's judgments removed, so the query
appears in neither the per-query results nor any metric's aggregate
numerator or denominator — and the relevant set used for binary metrics for
an evaluated query contains exactly the judged documents whose (last-wins)
relevance grade is `> 0`. -/
theorem trec_batch_skips_unmatched (runs : List TrecRun) (qrels : List Qrel)
    (metrics : List String) (qid : String)
    (hqid : ∀ r ∈ runs, r.query_id ≠ qid) :
    evaluate_trec_batch runs qrels metrics =
      evaluate_trec_batch runs
        (qrels.filter (fun q => decide (q.query_id ≠ qid))) metrics ∧
    (∀ qr ∈ (evaluate_trec_batch runs qrels metrics).query_results, qr.query_id ≠ qid) ∧
    (∀ e ∈ group_qrels_by_query qrels, ∀ d : String,
      d ∈ relevantSet e.2 ↔ ∃ g, lookupAL e.2 d = some g ∧ 0 < g) := by
  have hnone : lookupAL (group_runs_by_query runs) qid = none :=
    group_runs_lookup_none runs qid hqid
  refine ⟨?_, ?_, ?_⟩
  · unfold evaluate_trec_batch
    simp only [group_qrels_filter qrels qid,
      trecLoop_skip_filter _ _ _ hnone (group_qrels_by_query qrels) [] [] []]
  · intro qr hqr
    have hqr' : qr ∈ (trecLoop (group_runs_by_query runs) metrics
        (group_qrels_by_query qrels) [] [] []).1 := hqr
    rcases trecLoop_results_mem _ _ _ [] [] [] qr hqr' with hin | ⟨_, hlk⟩
    · exact absurd hin (List.not_mem_nil qr)
    · intro heq
      rw [heq] at hlk
      exact hlk hnone
  · intro e he d
    exact mem_relevantSet_iff e.2 d (group_qrels_inner_nodup qrels e he)

/-- Witness for C9: one run for query `q1`, judgments for `q1` and the
run-less query `q2`. -/
theorem trec_batch_skips_unmatched_witness :
    evaluate_trec_batch [⟨"q1", "d1", 1, 9 / 10, "r1"⟩]
        [⟨"q1", "d1", 1⟩, ⟨"q2", "d2", 1⟩] ["precision@5"] =
      evaluate_trec_batch [⟨"q1", "d1", 1, 9 / 10, "r1"⟩]
        (([⟨"q1", "d1", 1⟩, ⟨"q2", "d2", 1⟩] : List Qrel).filter
          (fun q => decide (q.query_id ≠ "q2"))) ["precision@5"] ∧
    (∀ qr ∈ (evaluate_trec_batch [⟨"q1", "d1", 1, 9 / 10, "r1"⟩]
        [⟨"q1", "d1", 1⟩, ⟨"q2", "d2", 1⟩] ["precision@5"]).query_results,
      qr.query_id ≠ "q2") ∧
    (∀ e ∈ group_qrels_by_query [⟨"q1", "d1", 1⟩, ⟨"q2", "d2", 1⟩], ∀ d : String,
      d ∈ relevantSet e.2 ↔ ∃ g, lookupAL e.2 d = some g ∧ 0 < g) :=
  trec_batch_skips_unmatched [⟨"q1", "d1", 1, 9 / 10, "r1"⟩]
    [⟨"q1", "d1", 1⟩, ⟨"q2", "d2", 1⟩] ["precision@5"] "q2" (by decide)

end ClaimC9

end RankEval
